import Mathlib

/-!
Verification development for the rfocxt context-extraction engine.

This file shallowly embeds the core of the engine: the per-module symbol
model (`ModContext`, mirroring `src/analysis/mod_context.rs`), the worklist
closure over reference edges (`parse_direct_applications` in
`src/analysis/parse_context.rs`), the direct/indirect assembly passes
(`ParseContext::parse_direct_applications` / `parse_indirect_applications`),
and the rendering layer (`src/analysis/syn_file.rs`).

Modelling conventions:
* Qualified names are `String`s, ordered by `strLt` (lexicographic order on
  the character list). `strLt` coincides with Lean's `<` on `String`
  (`strLt_iff_lt` below), which is the same lexicographic order that Rust's
  `Ord for String` gives on UTF-8 data; `BTreeSet<String>` is modelled as a
  strictly `strLt`-sorted duplicate-free list, with `insertName` as its
  `insert` and the head/minimum as `pop_first`.
* The external `syn` parser is not re-implemented: wherever the source
  stores a source-text field `codes: String` and later runs
  `syn::parse_str` on it, the embedding stores the parse result directly
  as an `Option` of a structured value (`none` models a parse failure).
  `RustFn` models `syn::ItemFn` (signature + block statements), and so on.
  For a `syn` item the embedding keeps exactly the components the engine
  inspects or rewrites: signature text, body statement list, and, for
  `impl` methods, the debug-formatted return type used by the textual
  return-type heuristic.
* `prettyplease::unparse` is external output formatting; rendering claims
  are settled on the item sequence (`SynFile.to_items`) that
  `SynFile::to_string` assembles and passes to the unparser.
-/

namespace Rfocxt

/-- Lexicographic order on qualified names: order of the character lists.
This is the order in which `BTreeSet<String>` keeps names. -/
def strLt (a b : String) : Prop := a.toList < b.toList

instance : DecidableRel strLt := fun a b =>
  inferInstanceAs (Decidable (a.toList < b.toList))

/-- Boolean form of `strLt`, used inside executable definitions. -/
def strLtB (a b : String) : Bool := decide (strLt a b)

/-- Reflexive closure of `strLt` (the `≤` of the name order). -/
def strLe (a b : String) : Prop := strLt a b ∨ a = b

instance : DecidableRel strLe := fun a b =>
  inferInstanceAs (Decidable (strLt a b ∨ a = b))

/-- Ordered insertion into a strictly sorted list of names; when the name is
already present the list is returned unchanged.  This is
`BTreeSet<String>::insert`. -/
def insertName (a : String) : List String → List String
  | [] => [a]
  | b :: bs =>
    if strLtB a b then a :: b :: bs
    else if a == b then b :: bs
    else b :: insertName a bs

/-- Set union on name sets: insert every element of `new` into `l`.  This is
`BTreeSet::extend`. -/
def mergeNames (l : List String) (new : List String) : List String :=
  new.foldl (fun acc x => insertName x acc) l

/-- Minimum of `x :: l` in the `strLt` order; `x :: l` is the pending set and
this is the element `BTreeSet::pop_first` removes. -/
def listMinD (x : String) (l : List String) : String :=
  l.foldl (fun a b => if strLtB b a then b else a) x

/-- Textual containment check, modelling Rust's `str::contains` on the
debug-formatted return type. -/
def strContains (s pat : String) : Bool :=
  s.toList.tails.any (fun t => pat.toList.isPrefixOf t)

/-- Splits a character list at every occurrence of `::`, leftmost-first, as
Rust's `split("::")` does. -/
def splitOnColons : List Char → List Char → List (List Char)
  | [], cur => [cur.reverse]
  | ':' :: ':' :: rest, cur => cur.reverse :: splitOnColons rest []
  | c :: rest, cur => splitOnColons rest (c :: cur)

/-- Last path segment of a qualified name:
`struct_name.split("::").last().unwrap()`. -/
def lastSegment (s : String) : String :=
  ⟨(splitOnColons s.toList []).getLastD []⟩

/-! ## The parsed-item layer (what `syn::parse_str` produces)

`RustFn` models `syn::ItemFn`: the engine only ever inspects or rewrites the
statement list of the body, so the signature (and braces) are kept as an
opaque text field while the statements are a list. -/

/-- A parsed free function (`syn::ItemFn`): signature text plus the
statements of its block. -/
structure RustFn where
  sig : String
  stmts : List String
deriving DecidableEq

/-- A parsed trait method (`syn::TraitItemFn`): signature text plus the
optional default body's statements. -/
structure RustTraitFn where
  sig : String
  default : Option (List String)
deriving DecidableEq

/-- A parsed impl method (`syn::ImplItemFn`): signature text, the
debug-formatted declared return type (`none` for `ReturnType::Default`),
and the statements of the body. -/
structure RustImplFn where
  sig : String
  retTy : Option String
  stmts : List String
deriving DecidableEq

/-! ## The module model (`mod_context.rs`)

Named items carry their qualified `name`, the parse result of their stored
source text (`codes`), and their reference set (`applications`).  Simple
items (uses, statics, consts, macros, aliases) are kept only as the parse
result of their text, an `Option String`. -/

/-- A free function item (`FnItem`). -/
structure FnItem where
  name : String
  codes : Option RustFn
  applications : List String
deriving DecidableEq

/-- An enum item (`EnumItem`); the parsed `ItemEnum` is opaque text. -/
structure EnumItem where
  name : String
  codes : Option String
  applications : List String
deriving DecidableEq

/-- A struct item (`StructItem`).  The reference-set field is spelled
`applcaitions` exactly as in the source. -/
structure StructItem where
  name : String
  codes : Option String
  applcaitions : List String
deriving DecidableEq

/-- A union item (`UnionItem`). -/
structure UnionItem where
  name : String
  codes : Option String
  applications : List String
deriving DecidableEq

/-- A member function of a trait (`InnerFnItem` whose `codes` parse as
`TraitItemFn`). -/
structure TraitInnerFn where
  name : String
  codes : Option RustTraitFn
  applications : List String
deriving DecidableEq

/-- A member function of an impl block (`InnerFnItem` whose `codes` parse as
`ImplItemFn`). -/
structure ImplInnerFn where
  name : String
  codes : Option RustImplFn
  applications : List String
deriving DecidableEq

/-- A trait item (`TraitItem`): header text (`ItemTrait` with its member
list cleared), member types/consts (opaque parsed text), member functions,
and the trait's own reference set. -/
structure TraitItem where
  name : String
  codes : Option String
  types : List (Option String)
  consts : List (Option String)
  fns : List TraitInnerFn
  applications : List String
deriving DecidableEq

/-- An impl item (`ImplItem`). -/
structure ImplItem where
  name : String
  struct_name : String
  trait_name : Option String
  codes : Option String
  types : List (Option String)
  consts : List (Option String)
  fns : List ImplInnerFn
  applications : List String
deriving DecidableEq

/-- A module's declaration collections (`ModContext`).  `macors` is the
source's spelling; `opq_tys` stands for the source's field of opaque type
aliases.  `extern_crates` and the per-item source spans are omitted: the
engine never reads them in the code under verification. -/
structure ModContext where
  name : String
  uses : List (Option String)
  statics : List (Option String)
  consts : List (Option String)
  fns : List FnItem
  macors : List (Option String)
  ty_aliases : List (Option String)
  opq_tys : List (Option String)
  enums : List EnumItem
  structs : List StructItem
  unions : List UnionItem
  traits : List TraitItem
  trait_aliases : List (Option String)
  impls : List ImplItem
  applications : List String
deriving DecidableEq

/-- Insertion into a name-ordered `BTreeSet<FnItem>`: the items compare by
`name` alone (`impl_eq_cmp_unique!`), and on an equal key `BTreeSet::insert`
keeps the element already present. -/
def btreeInsertFn (x : FnItem) : List FnItem → List FnItem
  | [] => [x]
  | y :: ys =>
    if strLtB x.name y.name then x :: y :: ys
    else if x.name == y.name then y :: ys
    else y :: btreeInsertFn x ys

/-- The comparison `impl_eq_cmp_unique!` derives for named items: it looks
only at the qualified name. -/
def fnItemCmp (a b : FnItem) : Ordering :=
  if strLtB a.name b.name then .lt
  else if a.name == b.name then .eq
  else .gt

/-- The equality `impl_eq_cmp_unique!` derives for named items. -/
def fnItemEqB (a b : FnItem) : Bool := a.name == b.name

/-- `ModContext::add_fn`: insert into the `fns` set. -/
def ModContext.add_fn (mc : ModContext) (x : FnItem) : ModContext :=
  { mc with fns := btreeInsertFn x mc.fns }

/-! ## The closure worklist (`parse_direct_applications`, free function) -/

/-- Reference successors of the name `application` contributed by one
module: the body of the inner `for mod_context` loop of
`parse_direct_applications`.  Every matching item of every kind contributes
its `applications`; impl blocks match on their target type name, their
implemented trait name, and their member function names.  (Trait member
functions are not expanded here: the loop over `mod_context.traits` only
compares the trait's own name.) -/
def succsMod (a : String) (mc : ModContext) : List String :=
  (mc.fns.filter (fun f => f.name == a)).flatMap (fun f => f.applications)
  ++ (mc.enums.filter (fun e => e.name == a)).flatMap (fun e => e.applications)
  ++ (mc.structs.filter (fun s => s.name == a)).flatMap (fun s => s.applcaitions)
  ++ (mc.unions.filter (fun u => u.name == a)).flatMap (fun u => u.applications)
  ++ (mc.traits.filter (fun t => t.name == a)).flatMap (fun t => t.applications)
  ++ mc.impls.flatMap (fun ip =>
      (if ip.struct_name == a then ip.applications else [])
      ++ (if ip.trait_name == some a then ip.applications else [])
      ++ (ip.fns.filter (fun f => f.name == a)).flatMap (fun f => f.applications))

/-- Reference successors of a name across the whole module list. -/
def succs (mods : List ModContext) (a : String) : List String :=
  mods.flatMap (succsMod a)

/-- The reference edge relation the worklist follows. -/
def refEdge (mods : List ModContext) (a b : String) : Prop :=
  b ∈ succs mods a

instance (mods : List ModContext) : DecidableRel (refEdge mods) :=
  fun a b => inferInstanceAs (Decidable (b ∈ succs mods a))

/-- All reference-set elements any module can contribute; `succs` always
lands inside this list.  Used only to measure termination. -/
def appsOfMod (mc : ModContext) : List String :=
  mc.fns.flatMap (fun f => f.applications)
  ++ mc.enums.flatMap (fun e => e.applications)
  ++ mc.structs.flatMap (fun s => s.applcaitions)
  ++ mc.unions.flatMap (fun u => u.applications)
  ++ mc.traits.flatMap (fun t => t.applications)
  ++ mc.impls.flatMap (fun ip => ip.applications ++ ip.fns.flatMap (fun f => f.applications))

/-- Union of `appsOfMod` over the module list. -/
def allApps (mods : List ModContext) : List String :=
  mods.flatMap appsOfMod

/-- State of the closure worklist: the pending set (`left_applications`),
the visited set (`indirect_applications`), and the chronological list of
names inserted into the visited set (recording each `insert`). -/
structure CState where
  left : List String
  indirect : List String
  trace : List String
deriving DecidableEq

/-- One iteration of the worklist loop: pop the smallest pending name; if it
was already visited do nothing else, otherwise mark it visited and enqueue
all of its reference successors.  On an empty pending set the state is
returned unchanged. -/
def closureStep (mods : List ModContext) (s : CState) : CState :=
  match s.left with
  | [] => s
  | x :: xs =>
    if listMinD x xs ∈ s.indirect then
      ⟨(x :: xs).erase (listMinD x xs), s.indirect, s.trace⟩
    else
      ⟨mergeNames ((x :: xs).erase (listMinD x xs)) (succs mods (listMinD x xs)),
        insertName (listMinD x xs) s.indirect, s.trace ++ [listMinD x xs]⟩

/-- Termination measure for the worklist: lexicographically, first the
number of names that can still be newly visited, then the size of the
pending set. -/
def cMeasure (mods : List ModContext) (s : CState) : ℕ × ℕ :=
  ((((allApps mods).toFinset ∪ s.left.toFinset) \ s.indirect.toFinset).card,
    s.left.length)

/-- The whole worklist loop `while !left_applications.is_empty() { ... }` of
`parse_direct_applications`. -/
def closureRun (mods : List ModContext) (s : CState) : CState :=
  if h : s.left = [] then s else closureRun mods (closureStep mods s)
termination_by cMeasure mods s
decreasing_by
  have hmem : ∀ (l : List String) (c : String), listMinD c l ∈ c :: l := by
    intro l
    induction l with
    | nil => intro c; simp [listMinD]
    | cons b bs ih =>
      intro c
      simp only [listMinD, List.foldl_cons]
      have h2 := ih (if strLtB b c then b else c)
      simp only [listMinD] at h2
      rcases List.mem_cons.1 h2 with h | h
      · rw [h]
        split
        · exact List.mem_cons_of_mem _ (List.mem_cons_self _ _)
        · exact List.mem_cons_self _ _
      · exact List.mem_cons_of_mem _ (List.mem_cons_of_mem _ h)
  have hins : ∀ (a : String) (l : List String),
      (insertName a l).toFinset = insert a l.toFinset := by
    intro a l
    induction l with
    | nil => simp [insertName]
    | cons b bs ih =>
      simp only [insertName]
      by_cases h1 : strLtB a b = true
      · rw [if_pos h1]; simp
      · rw [if_neg h1]
        by_cases h2 : (a == b) = true
        · rw [if_pos h2]
          have hab : a = b := by simpa using h2
          subst hab; simp
        · rw [if_neg h2, List.toFinset_cons, List.toFinset_cons, ih,
            Finset.Insert.comm]
  have hmerge : ∀ (new l : List String),
      (mergeNames l new).toFinset = l.toFinset ∪ new.toFinset := by
    intro new
    induction new with
    | nil => intro l; simp [mergeNames]
    | cons x xs ih =>
      intro l
      simp only [mergeNames, List.foldl_cons]
      have h3 := ih (insertName x l)
      simp only [mergeNames] at h3
      rw [h3, hins, List.toFinset_cons]
      ext y
      simp only [Finset.mem_union, Finset.mem_insert]
      tauto
  have hsuccs : ∀ (a y : String), y ∈ succs mods a → y ∈ allApps mods := by
    intro a y hy
    rw [succs, List.mem_flatMap] at hy
    obtain ⟨mc, hmc, hy⟩ := hy
    rw [allApps, List.mem_flatMap]
    refine ⟨mc, hmc, ?_⟩
    rw [succsMod] at hy
    rw [appsOfMod]
    simp only [List.mem_append, List.mem_flatMap, List.mem_filter, or_assoc] at hy ⊢
    rcases hy with hh | hh | hh | hh | hh | hh
    · obtain ⟨f, ⟨hf, _⟩, hyf⟩ := hh
      exact Or.inl ⟨f, hf, hyf⟩
    · obtain ⟨e, ⟨he, _⟩, hye⟩ := hh
      exact Or.inr (Or.inl ⟨e, he, hye⟩)
    · obtain ⟨st, ⟨hst, _⟩, hyst⟩ := hh
      exact Or.inr (Or.inr (Or.inl ⟨st, hst, hyst⟩))
    · obtain ⟨u, ⟨hu, _⟩, hyu⟩ := hh
      exact Or.inr (Or.inr (Or.inr (Or.inl ⟨u, hu, hyu⟩)))
    · obtain ⟨t, ⟨ht, _⟩, hyt⟩ := hh
      exact Or.inr (Or.inr (Or.inr (Or.inr (Or.inl ⟨t, ht, hyt⟩))))
    · obtain ⟨ip, hip, hyip⟩ := hh
      refine Or.inr (Or.inr (Or.inr (Or.inr (Or.inr ⟨ip, hip, ?_⟩))))
      rcases hyip with hh | hh | hh
      · split at hh
        · exact Or.inl hh
        · simp at hh
      · split at hh
        · exact Or.inl hh
        · simp at hh
      · obtain ⟨f, ⟨hf, _⟩, hyf⟩ := hh
        exact Or.inr ⟨f, hf, hyf⟩
  obtain ⟨left, ind, tr⟩ := s
  obtain ⟨x, xs, rfl⟩ : ∃ x xs, left = x :: xs := by
    cases left with
    | nil => exact absurd rfl h
    | cons x xs => exact ⟨x, xs, rfl⟩
  have hamem : listMinD x xs ∈ x :: xs := hmem xs x
  simp only [closureStep]
  by_cases hvis : listMinD x xs ∈ ind
  · rw [if_pos hvis]
    have hsub : (((allApps mods).toFinset ∪ ((x :: xs).erase (listMinD x xs)).toFinset)
          \ ind.toFinset)
        ⊆ (((allApps mods).toFinset ∪ (x :: xs).toFinset) \ ind.toFinset) := by
      intro y hy
      rw [Finset.mem_sdiff] at hy ⊢
      refine ⟨?_, hy.2⟩
      rcases Finset.mem_union.1 hy.1 with h' | h'
      · exact Finset.mem_union_left _ h'
      · exact Finset.mem_union_right _ (List.mem_toFinset.2
          (((x :: xs).erase_sublist (listMinD x xs)).mem (List.mem_toFinset.1 h')))
    have hlen : ((x :: xs).erase (listMinD x xs)).length < (x :: xs).length := by
      rw [List.length_erase_of_mem hamem]
      simp
    rcases lt_or_eq_of_le (Finset.card_le_card hsub) with hlt | heq
    · exact Prod.Lex.left _ _ hlt
    · simp only [cMeasure, heq]
      exact Prod.Lex.right _ hlen
  · rw [if_neg hvis]
    apply Prod.Lex.left
    simp only [cMeasure]
    rw [hmerge, hins]
    apply Finset.card_lt_card
    constructor
    · intro y hy
      rw [Finset.mem_sdiff] at hy ⊢
      obtain ⟨hy1, hy2⟩ := hy
      rw [Finset.mem_insert] at hy2
      push_neg at hy2
      refine ⟨?_, hy2.2⟩
      rcases Finset.mem_union.1 hy1 with h' | h'
      · exact Finset.mem_union_left _ h'
      · rcases Finset.mem_union.1 h' with h'' | h''
        · exact Finset.mem_union_right _ (List.mem_toFinset.2
            (((x :: xs).erase_sublist (listMinD x xs)).mem (List.mem_toFinset.1 h'')))
        · exact Finset.mem_union_left _ (List.mem_toFinset.2
            (hsuccs _ _ (List.mem_toFinset.1 h'')))
    · intro hcon
      have hx : listMinD x xs ∈
          (((allApps mods).toFinset ∪ (x :: xs).toFinset) \ ind.toFinset) := by
        rw [Finset.mem_sdiff]
        exact ⟨Finset.mem_union_right _ (List.mem_toFinset.2 hamem),
          fun hc => hvis (List.mem_toFinset.1 hc)⟩
      have := hcon hx
      rw [Finset.mem_sdiff, Finset.mem_insert] at this
      exact this.2 (Or.inl rfl)

/-! ## The rendered-item layer (`syn_file.rs`) -/

/-- A rendered free function (`FnSynItem`). -/
structure FnSynItem where
  name : String
  item : RustFn
deriving DecidableEq

/-- A rendered enum (`EnumSynItem`); the parsed item is opaque text. -/
structure EnumSynItem where
  name : String
  item : String
deriving DecidableEq

/-- A rendered struct (`StructSynItem`). -/
structure StructSynItem where
  name : String
  item : String
deriving DecidableEq

/-- A rendered union (`UnionSynItem`). -/
structure UnionSynItem where
  name : String
  item : String
deriving DecidableEq

/-- A rendered trait method (`TraitFnSynItem`). -/
structure TraitFnSynItem where
  name : String
  item : RustTraitFn
deriving DecidableEq

/-- A rendered trait (`TraitSynItem`): header plus member collections. -/
structure TraitSynItem where
  name : String
  item : String
  types : List String
  consts : List String
  fns : List TraitFnSynItem
deriving DecidableEq

/-- A rendered impl method (`ImplFnSynItem`). -/
structure ImplFnSynItem where
  name : String
  item : RustImplFn
deriving DecidableEq

/-- A rendered impl block (`ImplSynItem`). -/
structure ImplSynItem where
  name : String
  struct_name : String
  trait_name : Option String
  item : String
  types : List String
  consts : List String
  fns : List ImplFnSynItem
deriving DecidableEq

/-- A resolved declaration as returned by the item lookups
(`SynApplication`). -/
inductive SynApplication where
  | fn (f : FnSynItem)
  | enum (e : EnumSynItem)
  | struct (s : StructSynItem)
  | union (u : UnionSynItem)
  | trait (t : TraitSynItem)
  | impl (i : ImplSynItem)
deriving DecidableEq

/-- The qualified name carried by a resolved declaration. -/
def SynApplication.name : SynApplication → String
  | .fn f => f.name
  | .enum e => e.name
  | .struct s => s.name
  | .union u => u.name
  | .trait t => t.name
  | .impl i => i.name

/-- Clears the statements of a trait method's default body, keeping the
`Option` shape: `if let Some(default) = &mut f.default { default.stmts.clear() }`
in `TraitSynItem::from_trait_item`. -/
def clearTraitDefault (r : RustTraitFn) : RustTraitFn :=
  { r with default := r.default.map (fun _ => []) }

/-- `TraitSynItem::from_trait_item`: parse the trait header (failure aborts
with `None`), parse each member (failures are skipped), and clear every
default method body. -/
def TraitSynItem.from_trait_item (t : TraitItem) : Option TraitSynItem :=
  t.codes.map (fun header =>
    { name := t.name
      item := header
      types := t.types.reduceOption
      consts := t.consts.reduceOption
      fns := t.fns.filterMap (fun f =>
        f.codes.map (fun r => ⟨f.name, clearTraitDefault r⟩)) })

/-- The textual return-type test of `ImplSynItem::from_impl_item`: the
debug-formatted return type must contain `"Self"` or the last `::`-segment
of the implementing type's name for the body to be kept. -/
def implRetKeeps (struct_name out : String) : Bool :=
  strContains out "Self" || strContains out (lastSegment struct_name)

/-- Body demotion applied to each impl method by
`ImplSynItem::from_impl_item`: with a declared return type failing
`implRetKeeps` the statements are cleared; with no declared return type
(`ReturnType::Default`) the method is left untouched. -/
def demoteImplFn (struct_name : String) (r : RustImplFn) : RustImplFn :=
  match r.retTy with
  | none => r
  | some out => if implRetKeeps struct_name out then r else { r with stmts := [] }

/-- `ImplSynItem::from_impl_item`: parse the impl header (failure aborts
with `None`), parse each member (failures are skipped), and demote method
bodies by the return-type heuristic. -/
def ImplSynItem.from_impl_item (ip : ImplItem) : Option ImplSynItem :=
  ip.codes.map (fun header =>
    { name := ip.name
      struct_name := ip.struct_name
      trait_name := ip.trait_name
      item := header
      types := ip.types.reduceOption
      consts := ip.consts.reduceOption
      fns := ip.fns.filterMap (fun f =>
        f.codes.map (fun r => ⟨f.name, demoteImplFn ip.struct_name r⟩)) })

/-- Replaces the first trait method named `a` with the given full parse (the
`for trait_fn_item in trait_syn_item.fns.iter_mut() { ... break }` loop). -/
def replaceFirstTraitFn (a : String) (new : RustTraitFn) :
    List TraitFnSynItem → List TraitFnSynItem
  | [] => []
  | g :: gs => if g.name == a then ⟨a, new⟩ :: gs else g :: replaceFirstTraitFn a new gs

/-- Replaces the first impl method named `a` with the given full parse. -/
def replaceFirstImplFn (a : String) (new : RustImplFn) :
    List ImplFnSynItem → List ImplFnSynItem
  | [] => []
  | g :: gs => if g.name == a then ⟨a, new⟩ :: gs else g :: replaceFirstImplFn a new gs

/-- One trait's contribution to `get_direct_item`'s scan: `none` means "no
match here, keep scanning"; `some none` means "matched but the trait failed
to parse, abort the whole lookup"; `some (some app)` is a successful
resolution.  When a member matches, its own full parse replaces the cleared
member inside the trait shell (if the member parse fails the shell is
returned unchanged). -/
def directFromTrait (a : String) (t : TraitItem) : Option (Option SynApplication) :=
  if t.name == a then some ((TraitSynItem.from_trait_item t).map .trait)
  else
    match t.fns.find? (fun f => f.name == a) with
    | none => none
    | some tf =>
      some ((TraitSynItem.from_trait_item t).map (fun ts =>
        .trait (match tf.codes with
          | some full => { ts with fns := replaceFirstTraitFn a full ts.fns }
          | none => ts)))

/-- One impl's contribution to `get_direct_item`'s scan: matches on the
target type name, the implemented trait name, or a member name; a member
match gets its full (undemoted) parse patched into the shell. -/
def directFromImpl (a : String) (ip : ImplItem) : Option (Option SynApplication) :=
  if ip.struct_name == a then some ((ImplSynItem.from_impl_item ip).map .impl)
  else if ip.trait_name == some a then some ((ImplSynItem.from_impl_item ip).map .impl)
  else
    match ip.fns.find? (fun f => f.name == a) with
    | none => none
    | some f =>
      some ((ImplSynItem.from_impl_item ip).map (fun is =>
        .impl (match f.codes with
          | some full => { is with fns := replaceFirstImplFn a full is.fns }
          | none => is)))

/-- One trait's contribution to `get_indirect_item`'s scan: as in the direct
scan but a matched member is NOT re-parsed, so the shell built by
`from_trait_item` (with default bodies cleared) is returned as is. -/
def indirectFromTrait (a : String) (t : TraitItem) : Option (Option SynApplication) :=
  if t.name == a then some ((TraitSynItem.from_trait_item t).map .trait)
  else
    match t.fns.find? (fun f => f.name == a) with
    | none => none
    | some _ => some ((TraitSynItem.from_trait_item t).map .trait)

/-- One impl's contribution to `get_indirect_item`'s scan: the shell built
by `from_impl_item` (bodies demoted by the heuristic) is returned as is. -/
def indirectFromImpl (a : String) (ip : ImplItem) : Option (Option SynApplication) :=
  if ip.struct_name == a then some ((ImplSynItem.from_impl_item ip).map .impl)
  else if ip.trait_name == some a then some ((ImplSynItem.from_impl_item ip).map .impl)
  else
    match ip.fns.find? (fun f => f.name == a) with
    | none => none
    | some _ => some ((ImplSynItem.from_impl_item ip).map .impl)

/-- The scan of one module's collections in `get_direct_item`, in source
order: fns, enums, structs, unions, traits (name then members), impls
(target type, trait name, members).  The first name match decides the
result; a parse failure on that first match aborts the lookup (`some none`). -/
def lookupDirectInMod (mc : ModContext) (a : String) : Option (Option SynApplication) :=
  match mc.fns.find? (fun f => f.name == a) with
  | some f => some (f.codes.map (fun r => .fn ⟨f.name, r⟩))
  | none =>
  match mc.enums.find? (fun e => e.name == a) with
  | some e => some (e.codes.map (fun c => .enum ⟨e.name, c⟩))
  | none =>
  match mc.structs.find? (fun s => s.name == a) with
  | some st => some (st.codes.map (fun c => .struct ⟨st.name, c⟩))
  | none =>
  match mc.unions.find? (fun u => u.name == a) with
  | some u => some (u.codes.map (fun c => .union ⟨u.name, c⟩))
  | none =>
  match mc.traits.findSome? (directFromTrait a) with
  | some r => some r
  | none =>
  match mc.impls.findSome? (directFromImpl a) with
  | some r => some r
  | none => none

/-- The scan of one module's collections in `get_indirect_item`: as the
direct scan, except that a matched free function has its body statements
cleared, and matched trait/impl members do not get their bodies patched
back in. -/
def lookupIndirectInMod (mc : ModContext) (a : String) : Option (Option SynApplication) :=
  match mc.fns.find? (fun f => f.name == a) with
  | some f => some (f.codes.map (fun r => .fn ⟨f.name, { r with stmts := [] }⟩))
  | none =>
  match mc.enums.find? (fun e => e.name == a) with
  | some e => some (e.codes.map (fun c => .enum ⟨e.name, c⟩))
  | none =>
  match mc.structs.find? (fun s => s.name == a) with
  | some st => some (st.codes.map (fun c => .struct ⟨st.name, c⟩))
  | none =>
  match mc.unions.find? (fun u => u.name == a) with
  | some u => some (u.codes.map (fun c => .union ⟨u.name, c⟩))
  | none =>
  match mc.traits.findSome? (indirectFromTrait a) with
  | some r => some r
  | none =>
  match mc.impls.findSome? (indirectFromImpl a) with
  | some r => some r
  | none => none

/-- `ParseContext::get_direct_item`: scan the modules in order and resolve
the name to a full declaration together with its owning module's name. -/
def getDirectItem : List ModContext → String → Option (String × SynApplication)
  | [], _ => none
  | mc :: rest, a =>
    match lookupDirectInMod mc a with
    | some r => r.map (fun app => (mc.name, app))
    | none => getDirectItem rest a

/-- `ParseContext::get_indirect_item`: scan the modules in order and resolve
the name to a reduced declaration together with its owning module's name. -/
def getIndirectItem : List ModContext → String → Option (String × SynApplication)
  | [], _ => none
  | mc :: rest, a =>
    match lookupIndirectInMod mc a with
    | some r => r.map (fun app => (mc.name, app))
    | none => getIndirectItem rest a

/-- A per-module output bucket (`SynFile`): simple kinds are parse results
of the whole module's items, named kinds start empty and are filled by the
two passes. -/
structure SynFile where
  name : String
  uses : List String
  statics : List String
  consts : List String
  fns : List FnSynItem
  macros : List String
  ty_aliases : List String
  enums : List EnumSynItem
  structs : List StructSynItem
  unions : List UnionSynItem
  traits : List TraitSynItem
  trait_aliases : List String
  impls : List ImplSynItem
deriving DecidableEq

/-- `SynFile::new`: copy every parseable simple declaration of the module
(uses, statics, consts, macros, type aliases including the opaque ones,
trait aliases) into the bucket wholesale; named kinds start empty. -/
def SynFile.new (mc : ModContext) : SynFile where
  name := mc.name
  uses := mc.uses.reduceOption
  statics := mc.statics.reduceOption
  consts := mc.consts.reduceOption
  fns := []
  macros := mc.macors.reduceOption
  ty_aliases := mc.ty_aliases.reduceOption ++ mc.opq_tys.reduceOption
  enums := []
  structs := []
  unions := []
  traits := []
  trait_aliases := mc.trait_aliases.reduceOption
  impls := []

/-- `TraitSynItem::add_direct_application_trait`: for every incoming method
whose default body exists and is non-empty, overwrite the same-named method
of the existing shell. -/
def TraitSynItem.add_direct_application_trait (self other : TraitSynItem) : TraitSynItem :=
  { self with
    fns := other.fns.foldl (fun acc ofn =>
      match ofn.item.default with
      | none => acc
      | some stmts => if stmts.isEmpty then acc else replaceFirstTraitFn ofn.name ofn.item acc)
      self.fns }

/-- `ImplSynItem::add_direct_application_impl`: for every incoming method
with a non-empty body, overwrite the same-named method of the existing
shell. -/
def ImplSynItem.add_direct_application_impl (self other : ImplSynItem) : ImplSynItem :=
  { self with
    fns := other.fns.foldl (fun acc ofn =>
      if ofn.item.stmts.isEmpty then acc else replaceFirstImplFn ofn.name ofn.item acc)
      self.fns }

/-- Applies `g` to the first element satisfying `p` (the `for ... { ...;
break }` mutation pattern). -/
def modifyFirst {α : Type} (p : α → Bool) (g : α → α) : List α → List α
  | [] => []
  | x :: xs => if p x then g x :: xs else x :: modifyFirst p g xs

/-- Direct-pass insertion of a resolved declaration into a bucket: fns,
enums, structs and unions are pushed; traits and impls are merged into an
already present same-named shell (via the `add_direct_application_*`
routines) or pushed. -/
def directInsertApp (app : SynApplication) (sf : SynFile) : SynFile :=
  match app with
  | .fn f => { sf with fns := sf.fns ++ [f] }
  | .enum e => { sf with enums := sf.enums ++ [e] }
  | .struct st => { sf with structs := sf.structs ++ [st] }
  | .union u => { sf with unions := sf.unions ++ [u] }
  | .trait t =>
    if sf.traits.any (fun x => x.name == t.name) then
      let merged := modifyFirst (fun x => x.name == t.name)
        (fun old => old.add_direct_application_trait t) sf.traits
      { sf with traits := merged }
    else { sf with traits := sf.traits ++ [t] }
  | .impl i =>
    if sf.impls.any (fun x => x.name == i.name) then
      let merged := modifyFirst (fun x => x.name == i.name)
        (fun old => old.add_direct_application_impl i) sf.impls
      { sf with impls := merged }
    else { sf with impls := sf.impls ++ [i] }

/-- Indirect-pass insertion of a resolved declaration into a bucket: for
every kind, a declaration whose name is already present is dropped,
otherwise it is pushed. -/
def indirectInsertApp (app : SynApplication) (sf : SynFile) : SynFile :=
  match app with
  | .fn f =>
    if sf.fns.any (fun x => x.name == f.name) then sf
    else { sf with fns := sf.fns ++ [f] }
  | .enum e =>
    if sf.enums.any (fun x => x.name == e.name) then sf
    else { sf with enums := sf.enums ++ [e] }
  | .struct st =>
    if sf.structs.any (fun x => x.name == st.name) then sf
    else { sf with structs := sf.structs ++ [st] }
  | .union u =>
    if sf.unions.any (fun x => x.name == u.name) then sf
    else { sf with unions := sf.unions ++ [u] }
  | .trait t =>
    if sf.traits.any (fun x => x.name == t.name) then sf
    else { sf with traits := sf.traits ++ [t] }
  | .impl i =>
    if sf.impls.any (fun x => x.name == i.name) then sf
    else { sf with impls := sf.impls ++ [i] }

/-- Routes an insertion to the owning module's bucket: the first bucket with
the module's name is modified in place; if none exists a fresh
`SynFile::new` bucket for the first module of that name is filled and
appended.  If no module carries the name, nothing happens. -/
def addToSynFiles (mods : List ModContext) (mname : String) (g : SynFile → SynFile)
    (sfs : List SynFile) : List SynFile :=
  if sfs.any (fun sf => sf.name == mname) then
    modifyFirst (fun sf => sf.name == mname) g sfs
  else
    match mods.find? (fun mc => mc.name == mname) with
    | some mc => sfs ++ [g (SynFile.new mc)]
    | none => sfs

namespace ParseContext

/-- `ParseContext::parse_direct_applications` (the method): iterate the
direct set in ascending name order, resolve each name fully, and insert it
into its owning bucket. -/
def parse_direct_applications (mods : List ModContext) (direct : List String)
    (sfs : List SynFile) : List SynFile :=
  direct.foldl (fun sfs a =>
    match getDirectItem mods a with
    | none => sfs
    | some (mname, app) => addToSynFiles mods mname (directInsertApp app) sfs) sfs

/-- `ParseContext::parse_indirect_applications`: iterate the indirect set in
ascending name order, resolve each name to its reduced form, and insert it
into its owning bucket unless the name is already present there. -/
def parse_indirect_applications (mods : List ModContext) (ind : List String)
    (sfs : List SynFile) : List SynFile :=
  ind.foldl (fun sfs a =>
    match getIndirectItem mods a with
    | none => sfs
    | some (mname, app) => addToSynFiles mods mname (indirectInsertApp app) sfs) sfs

end ParseContext

/-- The free function `parse_direct_applications` of `parse_context.rs`:
run the closure worklist from the given pending set (a clone of the direct
set) and visited set, returning the final state. -/
def parse_direct_applications (mods : List ModContext) (direct ind : List String) : CState :=
  closureRun mods ⟨direct, ind, []⟩

/-- An item of the re-serialized output, in the shape `SynFile::to_string`
hands to the unparser (`iMcr` renders a macro item). -/
inductive Item where
  | iUse (s : String)
  | iStatic (s : String)
  | iConst (s : String)
  | iFn (f : FnSynItem)
  | iMcr (s : String)
  | iTyAlias (s : String)
  | iEnum (e : EnumSynItem)
  | iStruct (s : StructSynItem)
  | iUnion (u : UnionSynItem)
  | iTrait (t : TraitSynItem)
  | iTraitAlias (s : String)
  | iImpl (i : ImplSynItem)
deriving DecidableEq

/-- The canonical position of each declaration kind in the emission order
of `SynFile::to_string`. -/
def Item.kind : Item → ℕ
  | .iUse _ => 0
  | .iStatic _ => 1
  | .iConst _ => 2
  | .iFn _ => 3
  | .iMcr _ => 4
  | .iTyAlias _ => 5
  | .iEnum _ => 6
  | .iStruct _ => 7
  | .iUnion _ => 8
  | .iTrait _ => 9
  | .iTraitAlias _ => 10
  | .iImpl _ => 11

/-- The item sequence `SynFile::to_string` assembles (uses, statics,
consts, fns, macros, type aliases, enums, structs, unions, traits, trait
aliases, impls) before handing it to the external unparser. -/
def SynFile.to_items (sf : SynFile) : List Item :=
  sf.uses.map .iUse ++ sf.statics.map .iStatic ++ sf.consts.map .iConst
  ++ sf.fns.map .iFn ++ sf.macros.map .iMcr ++ sf.ty_aliases.map .iTyAlias
  ++ sf.enums.map .iEnum ++ sf.structs.map .iStruct ++ sf.unions.map .iUnion
  ++ sf.traits.map .iTrait ++ sf.trait_aliases.map .iTraitAlias
  ++ sf.impls.map .iImpl

/-- The free `to_string` of `parse_context.rs`: one module-name comment
header followed by the module's items, buckets concatenated in order. -/
def contextItems (sfs : List SynFile) : List (String × List Item) :=
  sfs.map (fun sf => (sf.name, sf.to_items))

/-- All items of a rendered context file, headers dropped. -/
def allItems (sfs : List SynFile) : List Item :=
  sfs.flatMap (fun sf => sf.to_items)

/-- The items a resolved declaration contributes when inserted whole. -/
def appItems : SynApplication → List Item
  | .fn f => [.iFn f]
  | .enum e => [.iEnum e]
  | .struct st => [.iStruct st]
  | .union u => [.iUnion u]
  | .trait t => [.iTrait t]
  | .impl i => [.iImpl i]

/-- Whether the item is (part of) the rendering of the name `a`, via either
pass's resolution.  Used to state the "selection-only output" claim. -/
def itemFromName (mods : List ModContext) (a : String) (it : Item) : Bool :=
  (match getDirectItem mods a with
   | some (_, app) => decide (it ∈ appItems app)
   | none => false)
  || (match getIndirectItem mods a with
      | some (_, app) => decide (it ∈ appItems app)
      | none => false)

/-- Formalization of the "selection-only output" reading of the spec: every
item a context file renders for the module buckets arises from some name of
the direct or indirect set. -/
def selectionOnlyB (mods : List ModContext) (direct ind : List String)
    (sfs : List SynFile) : Bool :=
  sfs.all (fun sf => sf.to_items.all (fun it =>
    (direct ++ ind).any (fun a => itemFromName mods a it)))

/-! ## Invariants and auxiliary predicates used by the theorems -/

/-- Strict sortedness in the name order: the well-formedness of a
`BTreeSet<String>` snapshot. -/
def sortedNames (l : List String) : Prop := l.Chain' strLt

/-- Invariant of the closure worklist: every visited name has all its
successors visited or pending, every seed is visited or pending, and the
insertion trace is duplicate-free and enumerates the visited set. -/
def closureInv (mods : List ModContext) (direct : List String) (s : CState) : Prop :=
  (∀ b ∈ s.indirect, ∀ c, refEdge mods b c → c ∈ s.indirect ∨ c ∈ s.left)
  ∧ (∀ x ∈ direct, x ∈ s.indirect ∨ x ∈ s.left)
  ∧ s.trace.Nodup
  ∧ (∀ x, x ∈ s.trace ↔ x ∈ s.indirect)

/-- One named-kind collection extends another: the new list is the old one
followed by entries whose names do not occur in the old one. -/
def ExtFresh {α : Type} (name : α → String) (l l' : List α) : Prop :=
  ∃ e, l' = l ++ e ∧ ∀ x ∈ e, ∀ y ∈ l, name y ≠ name x

/-- Bucket extension: `sf'` has the same module name and simple
declarations as `sf`, and each named-kind collection of `sf'` freshly
extends that of `sf`.  This is what one indirect-pass insertion does to a
bucket. -/
def SFExtends (sf sf' : SynFile) : Prop :=
  sf'.name = sf.name ∧ sf'.uses = sf.uses ∧ sf'.statics = sf.statics
  ∧ sf'.consts = sf.consts ∧ sf'.macros = sf.macros
  ∧ sf'.ty_aliases = sf.ty_aliases ∧ sf'.trait_aliases = sf.trait_aliases
  ∧ ExtFresh (fun f => f.name) sf.fns sf'.fns
  ∧ ExtFresh (fun e => e.name) sf.enums sf'.enums
  ∧ ExtFresh (fun s => s.name) sf.structs sf'.structs
  ∧ ExtFresh (fun u => u.name) sf.unions sf'.unions
  ∧ ExtFresh (fun t => t.name) sf.traits sf'.traits
  ∧ ExtFresh (fun i => i.name) sf.impls sf'.impls

/-- Positionwise bucket extension of a bucket list. -/
def LExtends (sfs sfs' : List SynFile) : Prop :=
  sfs.length ≤ sfs'.length
  ∧ ∀ (i : ℕ) (sf : SynFile), sfs[i]? = some sf →
      ∃ sf', sfs'[i]? = some sf' ∧ SFExtends sf sf' 

/-- The names of all named declarations a bucket holds. -/
def namedDeclNames (sf : SynFile) : List String :=
  sf.fns.map (fun f => f.name) ++ sf.enums.map (fun e => e.name)
  ++ sf.structs.map (fun s => s.name) ++ sf.unions.map (fun u => u.name)
  ++ sf.traits.map (fun t => t.name) ++ sf.impls.map (fun i => i.name)

/-- A bucket's simple declarations are the wholesale copy `SynFile::new`
makes from some module of the list with the bucket's name. -/
def BucketOrigin (mods : List ModContext) (sf : SynFile) : Prop :=
  ∃ mc ∈ mods, mc.name = sf.name
    ∧ sf.uses = mc.uses.reduceOption ∧ sf.statics = mc.statics.reduceOption
    ∧ sf.consts = mc.consts.reduceOption ∧ sf.macros = mc.macors.reduceOption
    ∧ sf.ty_aliases = mc.ty_aliases.reduceOption ++ mc.opq_tys.reduceOption
    ∧ sf.trait_aliases = mc.trait_aliases.reduceOption

/-- Every named declaration of the bucket carries the name of a declaration
resolved from some selected name. -/
def NameProvenance (mods : List ModContext) (sel : List String) (sf : SynFile) : Prop :=
  ∀ n ∈ namedDeclNames sf, ∃ a ∈ sel, ∃ m app,
    (getDirectItem mods a = some (m, app) ∨ getIndirectItem mods a = some (m, app))
    ∧ app.name = n

/-! ## Concrete inputs for witnesses and counterexamples -/

/-- A module with empty collections. -/
def emptyMod (n : String) : ModContext where
  name := n
  uses := []
  statics := []
  consts := []
  fns := []
  macors := []
  ty_aliases := []
  opq_tys := []
  enums := []
  structs := []
  unions := []
  traits := []
  trait_aliases := []
  impls := []
  applications := []

/-- A two-function module: `m::f` references `m::g`. -/
def exMods : List ModContext :=
  [{ emptyMod "m" with
      fns := [⟨"m::f", some ⟨"fn f()", ["fbody"]⟩, ["m::g"]⟩,
              ⟨"m::g", some ⟨"fn g()", ["gbody"]⟩, []⟩] }]

/-- An impl block whose single method has no declared return type and a
non-empty body. -/
def exImpl5 : ImplItem where
  name := "m::{impl#0}"
  struct_name := "m::T"
  trait_name := none
  codes := some "impl T"
  types := []
  consts := []
  fns := [⟨"m::T::log", some ⟨"fn log(&self)", none, ["do_stuff()"]⟩, []⟩]
  applications := []

/-- A trait with one default-bodied method. -/
def exTrait6 : TraitItem where
  name := "m::Tr"
  codes := some "trait Tr"
  types := []
  consts := []
  fns := [⟨"m::Tr::dm", some ⟨"fn dm()", some ["body()"]⟩, []⟩]
  applications := []

/-- Module list containing only `exTrait6`. -/
def exMods6 : List ModContext := [{ emptyMod "m" with traits := [exTrait6] }]

/-- Two function items with the same qualified name but different source
text. -/
def exFnA : FnItem := ⟨"m::f", some ⟨"fn f()", ["first"]⟩, []⟩

/-- The later-inserted rival of `exFnA`. -/
def exFnB : FnItem := ⟨"m::f", some ⟨"fn f()", ["second"]⟩, []⟩

/-- A module already holding `exFnA`. -/
def exMod7 : ModContext := { emptyMod "m" with fns := [exFnA] }

/-- A module in which the name `m::x` resolves both to a free function and
to a struct. -/
def exMod8 : ModContext :=
  { emptyMod "m" with
      fns := [⟨"m::x", some ⟨"fn x()", ["xbody"]⟩, ["m::fa"]⟩],
      structs := [⟨"m::x", some "struct x;", ["m::sa"]⟩] }

/-- The module list holding `exMod8`. -/
def exMods8 : List ModContext := [exMod8]

/-- A three-function chain `m::f → m::z → m::a` whose indirect-only member
`m::a` sorts before the direct members. -/
def exMods9 : List ModContext :=
  [{ emptyMod "m" with
      fns := [⟨"m::f", some ⟨"fn f()", ["fb"]⟩, ["m::z"]⟩,
              ⟨"m::z", some ⟨"fn z()", ["zb"]⟩, ["m::a"]⟩,
              ⟨"m::a", some ⟨"fn a()", ["ab"]⟩, []⟩] }]

/-- A module with an unselected constant next to the extracted function. -/
def exMods10 : List ModContext :=
  [{ emptyMod "m" with
      consts := [some "const C: i32 = 0;"],
      fns := [⟨"m::f", some ⟨"fn f()", ["fb"]⟩, []⟩] }]

/-- The impl shell `from_impl_item` materializes from `exImpl5`: the
unit-returning method keeps its body. -/
def exIs5 : ImplSynItem where
  name := "m::{impl#0}"
  struct_name := "m::T"
  trait_name := none
  item := "impl T"
  types := []
  consts := []
  fns := [⟨"m::T::log", ⟨"fn log(&self)", none, ["do_stuff()"]⟩⟩]

/-- The trait shell `from_trait_item` materializes from `exTrait6`: the
default body is cleared. -/
def exTs6 : TraitSynItem where
  name := "m::Tr"
  item := "trait Tr"
  types := []
  consts := []
  fns := [⟨"m::Tr::dm", ⟨"fn dm()", some []⟩⟩]

/-! ## Basic lemmas about the name order and the set primitives -/

theorem strLt_iff_lt (a b : String) : strLt a b ↔ a < b :=
  String.lt_iff_toList_lt.symm

theorem toList_inj {a b : String} (h : a.toList = b.toList) : a = b := by
  cases a; cases b
  exact congrArg String.mk (by simpa [String.toList] using h)

theorem strLt_irrefl (a : String) : ¬ strLt a a := by
  simp [strLt]

theorem strLt_trans {a b c : String} (h1 : strLt a b) (h2 : strLt b c) : strLt a c :=
  lt_trans h1 h2

theorem strLe_refl (a : String) : strLe a a := Or.inr rfl

theorem strLe_trans {a b c : String} (h1 : strLe a b) (h2 : strLe b c) : strLe a c := by
  rcases h1 with h1 | rfl
  · rcases h2 with h2 | rfl
    · exact Or.inl (strLt_trans h1 h2)
    · exact Or.inl h1
  · exact h2

theorem strLe_of_not_lt {a b : String} (h : ¬ strLt a b) : strLe b a := by
  rcases lt_or_eq_of_le (le_of_not_lt h : b.toList ≤ a.toList) with h' | h'
  · exact Or.inl h'
  · exact Or.inr (toList_inj h')

theorem strLtB_iff {a b : String} : strLtB a b = true ↔ strLt a b := by
  simp [strLtB]

theorem mem_insertName {x a : String} : ∀ {l : List String},
    x ∈ insertName a l ↔ x = a ∨ x ∈ l := by
  intro l
  induction l with
  | nil => simp [insertName]
  | cons b bs ih =>
    simp only [insertName]
    by_cases h1 : strLtB a b = true
    · rw [if_pos h1]; simp
    · rw [if_neg h1]
      by_cases h2 : (a == b) = true
      · rw [if_pos h2]
        have hab : a = b := by simpa using h2
        subst hab
        simp only [List.mem_cons]
        tauto
      · rw [if_neg h2]
        simp only [List.mem_cons, ih]
        tauto

theorem mem_mergeNames {x : String} : ∀ {new l : List String},
    x ∈ mergeNames l new ↔ x ∈ l ∨ x ∈ new := by
  intro new
  induction new with
  | nil => intro l; simp [mergeNames]
  | cons a as ih =>
    intro l
    simp only [mergeNames, List.foldl_cons]
    have h := @ih (insertName a l)
    simp only [mergeNames] at h
    rw [h, mem_insertName]
    simp only [List.mem_cons]
    tauto

theorem listMinD_mem' : ∀ (l : List String) (c : String), listMinD c l ∈ c :: l := by
  intro l
  induction l with
  | nil => intro c; simp [listMinD]
  | cons b bs ih =>
    intro c
    simp only [listMinD, List.foldl_cons]
    have h2 := ih (if strLtB b c then b else c)
    simp only [listMinD] at h2
    rcases List.mem_cons.1 h2 with h | h
    · rw [h]
      split
      · exact List.mem_cons_of_mem _ (List.mem_cons_self _ _)
      · exact List.mem_cons_self _ _
    · exact List.mem_cons_of_mem _ (List.mem_cons_of_mem _ h)

theorem listMinD_mem (c : String) (l : List String) : listMinD c l ∈ c :: l :=
  listMinD_mem' l c

theorem listMinD_le' : ∀ (l : List String) (c : String),
    ∀ b ∈ c :: l, strLe (listMinD c l) b := by
  intro l
  induction l with
  | nil =>
    intro c b hb
    rcases List.mem_cons.1 hb with rfl | h
    · exact strLe_refl _
    · simp at h
  | cons d ds ih =>
    intro c b hb
    simp only [listMinD, List.foldl_cons]
    have hmin := ih (if strLtB d c then d else c)
    simp only [listMinD] at hmin
    have hhead : strLe (List.foldl (fun a b => if strLtB b a = true then b else a)
        (if strLtB d c = true then d else c) ds) (if strLtB d c = true then d else c) :=
      hmin _ (List.mem_cons_self _ _)
    rcases List.mem_cons.1 hb with hbc | hb'
    · rw [hbc]
      by_cases hdc : strLtB d c = true
      · rw [if_pos hdc] at hhead ⊢
        exact strLe_trans hhead (Or.inl (strLtB_iff.1 hdc))
      · rw [if_neg hdc] at hhead ⊢
        exact hhead
    rcases List.mem_cons.1 hb' with hbd | hb''
    · rw [hbd]
      by_cases hdc : strLtB d c = true
      · rw [if_pos hdc] at hhead ⊢
        exact hhead
      · rw [if_neg hdc] at hhead ⊢
        exact strLe_trans hhead (strLe_of_not_lt (fun hc => hdc (strLtB_iff.2 hc)))
    · exact hmin _ (List.mem_cons_of_mem _ hb'')

theorem listMinD_le (c : String) (l : List String) :
    ∀ b ∈ c :: l, strLe (listMinD c l) b :=
  listMinD_le' l c

/-! ## Lemmas about the closure worklist -/

theorem closureRun_left_nil (mods : List ModContext) (s : CState) :
    (closureRun mods s).left = [] := by
  induction s using closureRun.induct mods with
  | case1 s h => rw [closureRun, dif_pos h, h]
  | case2 s h ih => rw [closureRun, dif_neg h]; exact ih

theorem closureRun_inv (mods : List ModContext) (P : CState → Prop)
    (hstep : ∀ s, s.left ≠ [] → P s → P (closureStep mods s)) :
    ∀ s, P s → P (closureRun mods s) := by
  intro s
  induction s using closureRun.induct mods with
  | case1 s h => intro hP; rw [closureRun, dif_pos h]; exact hP
  | case2 s h ih => intro hP; rw [closureRun, dif_neg h]; exact ih (hstep s h hP)

theorem closureStep_preserves_inv (mods : List ModContext) (direct : List String) :
    ∀ s, s.left ≠ [] → closureInv mods direct s → closureInv mods direct (closureStep mods s) := by
  intro s hne hinv
  obtain ⟨left, ind, tr⟩ := s
  obtain ⟨x, xs, rfl⟩ : ∃ x xs, left = x :: xs := by
    cases left with
    | nil => exact absurd rfl hne
    | cons x xs => exact ⟨x, xs, rfl⟩
  obtain ⟨hclosed, hseed, hnd, htr⟩ := hinv
  have hamem : listMinD x xs ∈ x :: xs := listMinD_mem x xs
  simp only [closureStep]
  by_cases hvis : listMinD x xs ∈ ind
  · rw [if_pos hvis]
    refine ⟨?_, ?_, hnd, htr⟩
    · intro b hb c hc
      rcases hclosed b hb c hc with h | h
      · exact Or.inl h
      · by_cases hca : c = listMinD x xs
        · exact Or.inl (hca ▸ hvis)
        · exact Or.inr ((List.mem_erase_of_ne hca).2 h)
    · intro y hy
      rcases hseed y hy with h | h
      · exact Or.inl h
      · by_cases hya : y = listMinD x xs
        · exact Or.inl (hya ▸ hvis)
        · exact Or.inr ((List.mem_erase_of_ne hya).2 h)
  · rw [if_neg hvis]
    refine ⟨?_, ?_, ?_, ?_⟩
    · intro b hb c hc
      rcases mem_insertName.1 hb with rfl | hb'
      · exact Or.inr (mem_mergeNames.2 (Or.inr hc))
      · rcases hclosed b hb' c hc with h | h
        · exact Or.inl (mem_insertName.2 (Or.inr h))
        · by_cases hca : c = listMinD x xs
          · exact Or.inl (mem_insertName.2 (Or.inl hca))
          · exact Or.inr (mem_mergeNames.2 (Or.inl ((List.mem_erase_of_ne hca).2 h)))
    · intro y hy
      rcases hseed y hy with h | h
      · exact Or.inl (mem_insertName.2 (Or.inr h))
      · by_cases hya : y = listMinD x xs
        · exact Or.inl (mem_insertName.2 (Or.inl hya))
        · exact Or.inr (mem_mergeNames.2 (Or.inl ((List.mem_erase_of_ne hya).2 h)))
    · refine List.nodup_append.2 ⟨hnd, List.nodup_singleton _, ?_⟩
      intro y hy hy'
      rcases List.mem_singleton.1 hy' with rfl
      exact hvis ((htr _).1 hy)
    · intro y
      rw [List.mem_append, List.mem_singleton, mem_insertName, htr]
      tauto

theorem closureRun_closureInv (mods : List ModContext) (direct ind₀ : List String)
    (hinit : closureInv mods direct ⟨direct, ind₀, []⟩) :
    closureInv mods direct (closureRun mods ⟨direct, ind₀, []⟩) :=
  closureRun_inv mods _ (closureStep_preserves_inv mods direct) _ hinit
/-- C1: for every module list and seed set (in particular the entry point's
name together with its own, its enclosing compound declaration's, and its
module's references), the worklist of `parse_direct_applications` produces
an `indirect_applications` set containing every name transitively reachable
from the seed set along reference edges, inserts each name at most once
(the insertion trace is duplicate-free), and contains the whole seed set
(`directSet ⊆ indirectSet`). -/
theorem closure_soundness (mods : List ModContext) (direct : List String) :
    (∀ x ∈ direct, ∀ y, Relation.ReflTransGen (refEdge mods) x y →
      y ∈ (parse_direct_applications mods direct []).indirect)
    ∧ (parse_direct_applications mods direct []).trace.Nodup
    ∧ ∀ x ∈ direct, x ∈ (parse_direct_applications mods direct []).indirect := by
  have hinit : closureInv mods direct ⟨direct, [], []⟩ := by
    refine ⟨?_, ?_, ?_, ?_⟩
    · intro b hb; simp at hb
    · intro x hx; exact Or.inr hx
    · exact List.nodup_nil
    · intro x; exact Iff.rfl
  have hrun := closureRun_closureInv mods direct [] hinit
  have hleft := closureRun_left_nil mods ⟨direct, [], []⟩
  obtain ⟨hclosed, hseed, hnd, _⟩ := hrun
  have hsub : ∀ x ∈ direct, x ∈ (closureRun mods ⟨direct, [], []⟩).indirect := by
    intro x hx
    rcases hseed x hx with h | h
    · exact h
    · rw [hleft] at h; simp at h
  refine ⟨?_, hnd, hsub⟩
  intro x hx y hpath
  induction hpath with
  | refl => exact hsub x hx
  | tail _ hedge ih =>
    rcases hclosed _ ih _ hedge with h | h
    · exact h
    · rw [hleft] at h; simp at h

/-- Witness for `closure_soundness` at a concrete input: `m::g` is
reachable from the seed `{m::f}` in one `refEdge` step and lands in the
computed indirect set. -/
theorem closure_soundness_witness :
    ("m::g" ∈ (parse_direct_applications exMods ["m::f"] []).indirect)
    ∧ (parse_direct_applications exMods ["m::f"] []).trace.Nodup
    ∧ "m::f" ∈ (parse_direct_applications exMods ["m::f"] []).indirect := by
  have h := closure_soundness exMods ["m::f"]
  exact ⟨h.1 "m::f" (by decide) "m::g" (Relation.ReflTransGen.single (by decide)),
    h.2.1, h.2.2 "m::f" (by decide)⟩

/-- C2: on every finite module list (cyclic reference graphs included) the
worklist terminates: iterating `closureStep` from any state empties the
pending set.  Moreover each iteration pops the lexicographically smallest
pending name, and when that name is already visited the step only removes
it — the visited-set check prevents re-expansion. -/
theorem closure_worklist_terminates (mods : List ModContext) (s : CState) :
    (∃ n, ((closureStep mods)^[n] s).left = [])
    ∧ (∀ x xs, s.left = x :: xs →
        (∀ b ∈ s.left, strLe (listMinD x xs) b)
        ∧ (listMinD x xs ∈ s.indirect →
            closureStep mods s = ⟨s.left.erase (listMinD x xs), s.indirect, s.trace⟩)) := by
  constructor
  · induction s using closureRun.induct mods with
    | case1 s h => exact ⟨0, h⟩
    | case2 s h ih =>
      obtain ⟨n, hn⟩ := ih
      exact ⟨n + 1, by rw [Function.iterate_succ_apply]; exact hn⟩
  · intro x xs hxl
    obtain ⟨l, ind, tr⟩ := s
    simp only at hxl
    subst hxl
    constructor
    · exact listMinD_le x xs
    · intro hvis
      simp only [closureStep]
      rw [if_pos hvis]

/-- Witness for `closure_worklist_terminates` at concrete states: the
iteration empties the pending set, the popped name is the smallest, and a
visited pop only erases. -/
theorem closure_worklist_terminates_witness :
    (∃ n, ((closureStep exMods)^[n] ⟨["m::f"], [], []⟩).left = [])
    ∧ strLe (listMinD "m::g" ["m::f"]) "m::g"
    ∧ closureStep exMods ⟨["m::f"], ["m::f"], []⟩ =
        ⟨(["m::f"] : List String).erase (listMinD "m::f" []), ["m::f"], []⟩ := by
  refine ⟨(closure_worklist_terminates exMods ⟨["m::f"], [], []⟩).1, ?_, ?_⟩
  · exact ((closure_worklist_terminates exMods ⟨["m::g", "m::f"], [], []⟩).2
      "m::g" ["m::f"] rfl).1 "m::g" (by decide)
  · exact ((closure_worklist_terminates exMods ⟨["m::f"], ["m::f"], []⟩).2
      "m::f" [] rfl).2 (by decide)

/-! ## Lemmas about bucket extension and the indirect pass -/

theorem ExtFresh_refl {α : Type} (name : α → String) (l : List α) : ExtFresh name l l :=
  ⟨[], by simp, by simp⟩

theorem ExtFresh_trans {α : Type} {name : α → String} {l1 l2 l3 : List α}
    (h1 : ExtFresh name l1 l2) (h2 : ExtFresh name l2 l3) : ExtFresh name l1 l3 := by
  obtain ⟨e1, rfl, hf1⟩ := h1
  obtain ⟨e2, rfl, hf2⟩ := h2
  refine ⟨e1 ++ e2, by rw [List.append_assoc], ?_⟩
  intro x hx y hy
  rcases List.mem_append.1 hx with hx' | hx'
  · exact hf1 x hx' y hy
  · exact hf2 x hx' y (List.mem_append_left _ hy)

theorem ExtFresh_filter {α : Type} {name : α → String} {l l' : List α}
    (h : ExtFresh name l l') (n : String)
    (hn : l.any (fun x => name x == n) = true) :
    l'.filter (fun x => name x == n) = l.filter (fun x => name x == n) := by
  obtain ⟨e, rfl, hf⟩ := h
  rw [List.filter_append]
  have he : e.filter (fun x => name x == n) = [] := by
    rw [List.filter_eq_nil_iff]
    intro x hx hxn
    obtain ⟨y, hy, hyn⟩ := List.any_eq_true.1 hn
    exact hf x hx y hy ((beq_iff_eq.1 hyn).trans (beq_iff_eq.1 hxn).symm)
  rw [he, List.append_nil]

theorem SFExtends_refl (sf : SynFile) : SFExtends sf sf :=
  ⟨rfl, rfl, rfl, rfl, rfl, rfl, rfl, ExtFresh_refl _ _, ExtFresh_refl _ _,
    ExtFresh_refl _ _, ExtFresh_refl _ _, ExtFresh_refl _ _, ExtFresh_refl _ _⟩

theorem SFExtends_trans {a b c : SynFile} (h1 : SFExtends a b) (h2 : SFExtends b c) :
    SFExtends a c := by
  obtain ⟨n1, u1, s1, c1, m1, t1, ta1, f1, e1, st1, un1, tr1, im1⟩ := h1
  obtain ⟨n2, u2, s2, c2, m2, t2, ta2, f2, e2, st2, un2, tr2, im2⟩ := h2
  refine ⟨n2.trans n1, u2.trans u1, s2.trans s1, c2.trans c1, m2.trans m1,
    t2.trans t1, ta2.trans ta1, ExtFresh_trans f1 f2, ExtFresh_trans e1 e2,
    ExtFresh_trans st1 st2, ExtFresh_trans un1 un2, ExtFresh_trans tr1 tr2,
    ExtFresh_trans im1 im2⟩

theorem freshSingleton {α : Type} {name : α → String} {l : List α} {x : α}
    (hany : ¬ l.any (fun y => name y == name x) = true) :
    ExtFresh name l (l ++ [x]) := by
  refine ⟨[x], rfl, ?_⟩
  intro z hz y hy
  rcases List.mem_singleton.1 hz with rfl
  intro hne
  exact hany (List.any_eq_true.2 ⟨y, hy, beq_iff_eq.2 hne⟩)

theorem indirectInsertApp_extends (app : SynApplication) (sf : SynFile) :
    SFExtends sf (indirectInsertApp app sf) := by
  cases app with
  | fn f =>
    simp only [indirectInsertApp]
    by_cases hany : sf.fns.any (fun x => x.name == f.name) = true
    · rw [if_pos hany]; exact SFExtends_refl sf
    · rw [if_neg hany]
      exact ⟨rfl, rfl, rfl, rfl, rfl, rfl, rfl, freshSingleton hany, ExtFresh_refl _ _,
        ExtFresh_refl _ _, ExtFresh_refl _ _, ExtFresh_refl _ _, ExtFresh_refl _ _⟩
  | enum e =>
    simp only [indirectInsertApp]
    by_cases hany : sf.enums.any (fun x => x.name == e.name) = true
    · rw [if_pos hany]; exact SFExtends_refl sf
    · rw [if_neg hany]
      exact ⟨rfl, rfl, rfl, rfl, rfl, rfl, rfl, ExtFresh_refl _ _, freshSingleton hany,
        ExtFresh_refl _ _, ExtFresh_refl _ _, ExtFresh_refl _ _, ExtFresh_refl _ _⟩
  | struct st =>
    simp only [indirectInsertApp]
    by_cases hany : sf.structs.any (fun x => x.name == st.name) = true
    · rw [if_pos hany]; exact SFExtends_refl sf
    · rw [if_neg hany]
      exact ⟨rfl, rfl, rfl, rfl, rfl, rfl, rfl, ExtFresh_refl _ _, ExtFresh_refl _ _,
        freshSingleton hany, ExtFresh_refl _ _, ExtFresh_refl _ _, ExtFresh_refl _ _⟩
  | union u =>
    simp only [indirectInsertApp]
    by_cases hany : sf.unions.any (fun x => x.name == u.name) = true
    · rw [if_pos hany]; exact SFExtends_refl sf
    · rw [if_neg hany]
      exact ⟨rfl, rfl, rfl, rfl, rfl, rfl, rfl, ExtFresh_refl _ _, ExtFresh_refl _ _,
        ExtFresh_refl _ _, freshSingleton hany, ExtFresh_refl _ _, ExtFresh_refl _ _⟩
  | trait t =>
    simp only [indirectInsertApp]
    by_cases hany : sf.traits.any (fun x => x.name == t.name) = true
    · rw [if_pos hany]; exact SFExtends_refl sf
    · rw [if_neg hany]
      exact ⟨rfl, rfl, rfl, rfl, rfl, rfl, rfl, ExtFresh_refl _ _, ExtFresh_refl _ _,
        ExtFresh_refl _ _, ExtFresh_refl _ _, freshSingleton hany, ExtFresh_refl _ _⟩
  | impl i =>
    simp only [indirectInsertApp]
    by_cases hany : sf.impls.any (fun x => x.name == i.name) = true
    · rw [if_pos hany]; exact SFExtends_refl sf
    · rw [if_neg hany]
      exact ⟨rfl, rfl, rfl, rfl, rfl, rfl, rfl, ExtFresh_refl _ _, ExtFresh_refl _ _,
        ExtFresh_refl _ _, ExtFresh_refl _ _, ExtFresh_refl _ _, freshSingleton hany⟩

theorem modifyFirst_length {α : Type} (p : α → Bool) (g : α → α) :
    ∀ l : List α, (modifyFirst p g l).length = l.length := by
  intro l
  induction l with
  | nil => rfl
  | cons x xs ih =>
    simp only [modifyFirst]
    by_cases hp : p x = true
    · rw [if_pos hp]; rfl
    · rw [if_neg hp]; simp [ih]

theorem modifyFirst_rel_get? {α : Type} (R : α → α → Prop) (p : α → Bool) (g : α → α)
    (hR : ∀ x, R x x) (hg : ∀ x, R x (g x)) :
    ∀ (l : List α) (i : ℕ) (sf : α), l[i]? = some sf →
      ∃ sf', (modifyFirst p g l)[i]? = some sf' ∧ R sf sf' := by
  intro l
  induction l with
  | nil => intro i sf h; simp at h
  | cons x xs ih =>
    intro i sf h
    simp only [modifyFirst]
    by_cases hp : p x = true
    · rw [if_pos hp]
      cases i with
      | zero =>
        rw [List.getElem?_cons_zero] at h ⊢
        exact ⟨g x, rfl, (Option.some.inj h) ▸ hg x⟩
      | succ j =>
        rw [List.getElem?_cons_succ] at h ⊢
        exact ⟨sf, h, hR sf⟩
    · rw [if_neg hp]
      cases i with
      | zero =>
        rw [List.getElem?_cons_zero] at h ⊢
        exact ⟨x, rfl, (Option.some.inj h) ▸ hR x⟩
      | succ j =>
        rw [List.getElem?_cons_succ] at h ⊢
        exact ih j sf h

theorem LExtends_refl (sfs : List SynFile) : LExtends sfs sfs :=
  ⟨le_refl _, fun _ sf h => ⟨sf, h, SFExtends_refl _⟩⟩

theorem LExtends_trans {a b c : List SynFile} (h1 : LExtends a b) (h2 : LExtends b c) :
    LExtends a c := by
  refine ⟨h1.1.trans h2.1, ?_⟩
  intro i sf h
  obtain ⟨sf1, hb, hab⟩ := h1.2 i sf h
  obtain ⟨sf2, hc, hbc⟩ := h2.2 i sf1 hb
  exact ⟨sf2, hc, SFExtends_trans hab hbc⟩

theorem addToSynFiles_extends (mods : List ModContext) (m : String) (g : SynFile → SynFile)
    (sfs : List SynFile) (hg : ∀ sf, SFExtends sf (g sf)) :
    LExtends sfs (addToSynFiles mods m g sfs) := by
  unfold addToSynFiles
  by_cases hany : sfs.any (fun sf => sf.name == m) = true
  · rw [if_pos hany]
    exact ⟨by rw [modifyFirst_length], fun i sf h =>
      modifyFirst_rel_get? SFExtends _ g SFExtends_refl hg sfs i sf h⟩
  · rw [if_neg hany]
    cases hfind : mods.find? (fun mc => mc.name == m) with
    | some mc =>
      refine ⟨by simp, ?_⟩
      intro i sf h
      obtain ⟨hlt, _⟩ := List.getElem?_eq_some_iff.1 h
      rw [List.getElem?_append_left hlt]
      exact ⟨sf, h, SFExtends_refl sf⟩
    | none => exact LExtends_refl sfs

theorem parse_indirect_extends (mods : List ModContext) :
    ∀ (ind : List String) (sfs : List SynFile),
      LExtends sfs (ParseContext.parse_indirect_applications mods ind sfs) := by
  intro ind
  induction ind with
  | nil => intro sfs; exact LExtends_refl sfs
  | cons a as ih =>
    intro sfs
    simp only [ParseContext.parse_indirect_applications, List.foldl_cons]
    cases hres : getIndirectItem mods a with
    | none =>
      have h0 := ih sfs
      simp only [ParseContext.parse_indirect_applications] at h0
      exact h0
    | some r =>
      obtain ⟨mname, app⟩ := r
      have hstep := addToSynFiles_extends mods mname (indirectInsertApp app) sfs
        (indirectInsertApp_extends app)
      have h0 := ih (addToSynFiles mods mname (indirectInsertApp app) sfs)
      simp only [ParseContext.parse_indirect_applications] at h0
      exact LExtends_trans hstep h0

/-- C3: the indirect pass runs on the buckets the direct pass produced and
never replaces or overwrites an entry of any named kind (function, enum,
struct, union, trait, impl) already present under the same name: every
direct-pass bucket reappears at its position extended only by fresh names,
and for any name already present in a kind, the final entries of that name
are exactly the direct-pass ones. -/
theorem direct_over_indirect (mods : List ModContext) (direct ind : List String) :
    (ParseContext.parse_direct_applications mods direct []).length ≤
      (ParseContext.parse_indirect_applications mods ind
        (ParseContext.parse_direct_applications mods direct [])).length
    ∧ ∀ (i : ℕ) (sf : SynFile),
        (ParseContext.parse_direct_applications mods direct [])[i]? = some sf →
        ∃ sf', (ParseContext.parse_indirect_applications mods ind
            (ParseContext.parse_direct_applications mods direct []))[i]? = some sf'
          ∧ SFExtends sf sf'
          ∧ (∀ n : String, sf.fns.any (fun f => f.name == n) = true →
              sf'.fns.filter (fun f => f.name == n) = sf.fns.filter (fun f => f.name == n))
          ∧ (∀ n : String, sf.enums.any (fun e => e.name == n) = true →
              sf'.enums.filter (fun e => e.name == n) = sf.enums.filter (fun e => e.name == n))
          ∧ (∀ n : String, sf.structs.any (fun s => s.name == n) = true →
              sf'.structs.filter (fun s => s.name == n) =
                sf.structs.filter (fun s => s.name == n))
          ∧ (∀ n : String, sf.unions.any (fun u => u.name == n) = true →
              sf'.unions.filter (fun u => u.name == n) =
                sf.unions.filter (fun u => u.name == n))
          ∧ (∀ n : String, sf.traits.any (fun t => t.name == n) = true →
              sf'.traits.filter (fun t => t.name == n) =
                sf.traits.filter (fun t => t.name == n))
          ∧ (∀ n : String, sf.impls.any (fun x => x.name == n) = true →
              sf'.impls.filter (fun x => x.name == n) =
                sf.impls.filter (fun x => x.name == n)) := by
  have hext := parse_indirect_extends mods ind
    (ParseContext.parse_direct_applications mods direct [])
  refine ⟨hext.1, ?_⟩
  intro i sf h
  obtain ⟨sf', hF, hsf⟩ := hext.2 i sf h
  obtain ⟨_, _, _, _, _, _, _, hfns, henums, hstructs, hunions, htraits, himpls⟩ := hsf
  exact ⟨sf', hF, ⟨by assumption, by assumption, by assumption, by assumption,
      by assumption, by assumption, by assumption, hfns, henums, hstructs,
      hunions, htraits, himpls⟩,
    fun n hn => ExtFresh_filter hfns n hn,
    fun n hn => ExtFresh_filter henums n hn,
    fun n hn => ExtFresh_filter hstructs n hn,
    fun n hn => ExtFresh_filter hunions n hn,
    fun n hn => ExtFresh_filter htraits n hn,
    fun n hn => ExtFresh_filter himpls n hn⟩

/-- Witness for `direct_over_indirect`: with `m::f` in both sets, the bucket
of the final output still maps `m::f` to its full direct-pass declaration
(body `["fbody"]` retained). -/
theorem direct_over_indirect_witness :
    ((ParseContext.parse_indirect_applications exMods ["m::f", "m::g"]
        (ParseContext.parse_direct_applications exMods ["m::f"] []))[0]?).map
      (fun sf' => sf'.fns.filter (fun f => f.name == "m::f"))
    = some [⟨"m::f", ⟨"fn f()", ["fbody"]⟩⟩] := by
  have h := direct_over_indirect exMods ["m::f"] ["m::f", "m::g"]
  have hD : (ParseContext.parse_direct_applications exMods ["m::f"] [])[0]? =
      some ⟨"m", [], [], [], [⟨"m::f", ⟨"fn f()", ["fbody"]⟩⟩], [], [], [], [], [], [], [], []⟩ := by
    decide
  obtain ⟨sf', hF, _, hfns, _⟩ := h.2 0 _ hD
  rw [hF, Option.map_some']
  rw [hfns "m::f" (by decide)]
  decide

/-! ## The indirect resolution of a free function (`get_indirect_item`) -/

theorem indirectFromTrait_eq {a : String} {t : TraitItem} {r : Option SynApplication}
    (h : indirectFromTrait a t = some r) :
    r = (TraitSynItem.from_trait_item t).map SynApplication.trait := by
  unfold indirectFromTrait at h
  by_cases h1 : (t.name == a) = true
  · rw [if_pos h1] at h
    exact (Option.some.inj h).symm
  · rw [if_neg h1] at h
    cases hf : t.fns.find? (fun f => f.name == a) with
    | none =>
      simp only [hf] at h
      exact Option.noConfusion h
    | some tf =>
      simp only [hf] at h
      exact (Option.some.inj h).symm

theorem indirectFromImpl_eq {a : String} {ip : ImplItem} {r : Option SynApplication}
    (h : indirectFromImpl a ip = some r) :
    r = (ImplSynItem.from_impl_item ip).map SynApplication.impl := by
  unfold indirectFromImpl at h
  by_cases h1 : (ip.struct_name == a) = true
  · rw [if_pos h1] at h
    exact (Option.some.inj h).symm
  · rw [if_neg h1] at h
    by_cases h2 : (ip.trait_name == some a) = true
    · rw [if_pos h2] at h
      exact (Option.some.inj h).symm
    · rw [if_neg h2] at h
      cases hf : ip.fns.find? (fun f => f.name == a) with
      | none =>
        simp only [hf] at h
        exact Option.noConfusion h
      | some f =>
        simp only [hf] at h
        exact (Option.some.inj h).symm

theorem lookupIndirect_fn (mc : ModContext) (a : String) (fs : FnSynItem)
    (h : lookupIndirectInMod mc a = some (some (.fn fs))) :
    fs.name = a ∧ ∃ fi ∈ mc.fns, fi.name = a ∧ ∃ orig, fi.codes = some orig ∧
      fs.item = ⟨orig.sig, []⟩ := by
  unfold lookupIndirectInMod at h
  cases hf : mc.fns.find? (fun f => f.name == a) with
  | some f =>
    simp only [hf] at h
    cases hc : f.codes with
    | none => rw [hc] at h; simp at h
    | some orig =>
      rw [hc] at h
      simp only [Option.map_some', Option.some.injEq, SynApplication.fn.injEq] at h
      subst h
      have hname : f.name = a := by simpa using List.find?_some hf
      exact ⟨hname, f, List.mem_of_find?_eq_some hf, hname, orig, hc, rfl⟩
  | none =>
    simp only [hf] at h
    cases he : mc.enums.find? (fun e => e.name == a) with
    | some e =>
      simp only [he] at h
      cases hc : e.codes with
      | none => rw [hc] at h; simp at h
      | some c => rw [hc] at h; simp at h
    | none =>
      simp only [he] at h
      cases hs : mc.structs.find? (fun s => s.name == a) with
      | some st =>
        simp only [hs] at h
        cases hc : st.codes with
        | none => rw [hc] at h; simp at h
        | some c => rw [hc] at h; simp at h
      | none =>
        simp only [hs] at h
        cases hu : mc.unions.find? (fun u => u.name == a) with
        | some u =>
          simp only [hu] at h
          cases hc : u.codes with
          | none => rw [hc] at h; simp at h
          | some c => rw [hc] at h; simp at h
        | none =>
          simp only [hu] at h
          cases ht : mc.traits.findSome? (indirectFromTrait a) with
          | some r =>
            simp only [ht] at h
            obtain ⟨t, _, htr⟩ := List.exists_of_findSome?_eq_some ht
            have hr := indirectFromTrait_eq htr
            rw [Option.some.injEq] at h
            rw [h] at hr
            cases hts : TraitSynItem.from_trait_item t with
            | none => rw [hts] at hr; simp at hr
            | some ts => rw [hts] at hr; simp at hr
          | none =>
            simp only [ht] at h
            cases hi : mc.impls.findSome? (indirectFromImpl a) with
            | some r =>
              simp only [hi] at h
              obtain ⟨ip, _, hir⟩ := List.exists_of_findSome?_eq_some hi
              have hr := indirectFromImpl_eq hir
              rw [Option.some.injEq] at h
              rw [h] at hr
              cases hts : ImplSynItem.from_impl_item ip with
              | none => rw [hts] at hr; simp at hr
              | some is => rw [hts] at hr; simp at hr
            | none =>
              simp only [hi] at h
              exact Option.noConfusion h

/-- C4: whenever the indirect pass resolves a name to a standalone
function, the rendered declaration carries that name, has an empty body
(all statements removed), and keeps the signature of the parsed original
source text unchanged. -/
theorem body_elision (mods : List ModContext) (a m : String) (fs : FnSynItem)
    (h : getIndirectItem mods a = some (m, .fn fs)) :
    fs.name = a ∧ fs.item.stmts = []
    ∧ ∃ mc ∈ mods, mc.name = m ∧ ∃ fi ∈ mc.fns, fi.name = a
        ∧ ∃ orig, fi.codes = some orig ∧ fs.item.sig = orig.sig := by
  induction mods with
  | nil => simp [getIndirectItem] at h
  | cons mc rest ih =>
    simp only [getIndirectItem] at h
    cases hl : lookupIndirectInMod mc a with
    | none =>
      simp only [hl] at h
      obtain ⟨h1, h2, mc', hmem, hrest⟩ := ih h
      exact ⟨h1, h2, mc', List.mem_cons_of_mem _ hmem, hrest⟩
    | some r =>
      simp only [hl] at h
      cases hr : r with
      | none => rw [hr] at h; simp at h
      | some app =>
        rw [hr] at h
        simp only [Option.map_some', Option.some.injEq, Prod.mk.injEq] at h
        obtain ⟨hm, happ⟩ := h
        rw [hr, happ] at hl
        obtain ⟨hname, fi, hfi, hfiname, orig, hcodes, hitem⟩ := lookupIndirect_fn mc a fs hl
        exact ⟨hname, by rw [hitem], mc, List.mem_cons_self _ _, hm, fi, hfi, hfiname,
          orig, hcodes, by rw [hitem]⟩

/-- Witness for `body_elision`: resolving `m::g` indirectly yields the
signature `fn g()` with the body `["gbody"]` elided. -/
theorem body_elision_witness :
    (getIndirectItem exMods "m::g" = some ("m", .fn ⟨"m::g", ⟨"fn g()", []⟩⟩))
    ∧ ("m::g" : String) = "m::g" ∧ ([] : List String) = [] := by
  refine ⟨by decide, ?_, rfl⟩
  have h := body_elision exMods "m::g" "m" ⟨"m::g", ⟨"fn g()", []⟩⟩ (by decide)
  exact h.1

/-! ## The return-type demotion of impl methods (`from_impl_item`) -/

/-- C5 counterexample: in the impl block `exImpl5` the method `m::T::log`
has no declared return type — so it mentions neither the implementing type
nor `Self` — yet `from_impl_item` keeps its full body, so it is not the
case that every materialized method is demoted to signature-only unless its
declared return type mentions the implementing type or `Self`. -/
theorem constructor_retention_cex :
    (ImplSynItem.from_impl_item exImpl5).map (fun is => is.fns.all (fun g =>
      (match g.item.retTy with
       | some out => implRetKeeps is.struct_name out
       | none => false)
      || g.item.stmts.isEmpty)) = some false
    ∧ (ImplSynItem.from_impl_item exImpl5).map
        (fun is => is.fns.map (fun g => g.item.stmts)) = some [["do_stuff()"]] :=
  ⟨by decide, by decide⟩

/-- C5 amended: when an impl block is materialized, a method whose declared
return type fails the textual test (`Self` or the last segment of the
implementing type's name) is demoted to signature-only; a method whose
return type passes the test, or which has no declared return type at all
(`ReturnType::Default`), keeps its full body. -/
theorem implFn_demotion (ip : ImplItem) (is : ImplSynItem)
    (h : ImplSynItem.from_impl_item ip = some is) :
    is.struct_name = ip.struct_name
    ∧ ∀ g ∈ is.fns, ∃ f ∈ ip.fns, ∃ r, f.codes = some r ∧ g.name = f.name
      ∧ (r.retTy = none → g.item = r)
      ∧ (∀ out, r.retTy = some out → implRetKeeps ip.struct_name out = true → g.item = r)
      ∧ (∀ out, r.retTy = some out → implRetKeeps ip.struct_name out = false →
          g.item = ⟨r.sig, r.retTy, []⟩) := by
  unfold ImplSynItem.from_impl_item at h
  cases hc : ip.codes with
  | none => rw [hc] at h; exact Option.noConfusion h
  | some header =>
    rw [hc] at h
    simp only [Option.map_some', Option.some.injEq] at h
    subst h
    refine ⟨rfl, ?_⟩
    intro g hg
    simp only [List.mem_filterMap] at hg
    obtain ⟨f, hf, hfg⟩ := hg
    cases hcodes : f.codes with
    | none => rw [hcodes] at hfg; exact Option.noConfusion hfg
    | some r =>
      rw [hcodes] at hfg
      simp only [Option.map_some', Option.some.injEq] at hfg
      subst hfg
      refine ⟨f, hf, r, hcodes, rfl, ?_, ?_, ?_⟩
      · intro hnone
        simp only [demoteImplFn, hnone]
      · intro out hout hkeep
        simp only [demoteImplFn, hout, hkeep, if_true]
      · intro out hout hkeep
        simp only [demoteImplFn, hout, hkeep]
        simp

/-- Witness for `implFn_demotion`: the shell of `exImpl5` is `exIs5` and
carries the implementing type's name. -/
theorem implFn_demotion_witness :
    ImplSynItem.from_impl_item exImpl5 = some exIs5 ∧ exIs5.struct_name = "m::T" :=
  ⟨by decide, (implFn_demotion exImpl5 exIs5 (by decide)).1⟩

/-! ## Trait default bodies in the indirect pass -/

theorem from_trait_item_fns {t : TraitItem} {ts : TraitSynItem}
    (h : TraitSynItem.from_trait_item t = some ts) :
    ∀ f ∈ ts.fns, ∃ tf ∈ t.fns, ∃ r, tf.codes = some r ∧ f.name = tf.name
      ∧ f.item = clearTraitDefault r := by
  unfold TraitSynItem.from_trait_item at h
  cases hc : t.codes with
  | none => rw [hc] at h; exact Option.noConfusion h
  | some header =>
    rw [hc] at h
    simp only [Option.map_some', Option.some.injEq] at h
    subst h
    intro f hf
    simp only [List.mem_filterMap] at hf
    obtain ⟨tf, htf, hfg⟩ := hf
    cases hcodes : tf.codes with
    | none => rw [hcodes] at hfg; exact Option.noConfusion hfg
    | some r =>
      rw [hcodes] at hfg
      simp only [Option.map_some', Option.some.injEq] at hfg
      subst hfg
      exact ⟨tf, htf, r, hcodes, rfl, rfl⟩

theorem lookupIndirect_trait (mc : ModContext) (a : String) (ts : TraitSynItem)
    (h : lookupIndirectInMod mc a = some (some (.trait ts))) :
    ∃ t ∈ mc.traits, TraitSynItem.from_trait_item t = some ts := by
  unfold lookupIndirectInMod at h
  cases hf : mc.fns.find? (fun f => f.name == a) with
  | some f =>
    simp only [hf] at h
    cases hc : f.codes with
    | none => rw [hc] at h; simp at h
    | some orig => rw [hc] at h; simp at h
  | none =>
    simp only [hf] at h
    cases he : mc.enums.find? (fun e => e.name == a) with
    | some e =>
      simp only [he] at h
      cases hc : e.codes with
      | none => rw [hc] at h; simp at h
      | some c => rw [hc] at h; simp at h
    | none =>
      simp only [he] at h
      cases hs : mc.structs.find? (fun s => s.name == a) with
      | some st =>
        simp only [hs] at h
        cases hc : st.codes with
        | none => rw [hc] at h; simp at h
        | some c => rw [hc] at h; simp at h
      | none =>
        simp only [hs] at h
        cases hu : mc.unions.find? (fun u => u.name == a) with
        | some u =>
          simp only [hu] at h
          cases hc : u.codes with
          | none => rw [hc] at h; simp at h
          | some c => rw [hc] at h; simp at h
        | none =>
          simp only [hu] at h
          cases ht : mc.traits.findSome? (indirectFromTrait a) with
          | some r =>
            simp only [ht] at h
            obtain ⟨t, htmem, htr⟩ := List.exists_of_findSome?_eq_some ht
            have hr := indirectFromTrait_eq htr
            rw [Option.some.injEq] at h
            rw [h] at hr
            cases hts : TraitSynItem.from_trait_item t with
            | none => rw [hts] at hr; simp at hr
            | some ts' =>
              rw [hts] at hr
              simp only [Option.map_some', Option.some.injEq,
                SynApplication.trait.injEq] at hr
              exact ⟨t, htmem, by rw [hts, hr]⟩
          | none =>
            simp only [ht] at h
            cases hi : mc.impls.findSome? (indirectFromImpl a) with
            | some r =>
              simp only [hi] at h
              obtain ⟨ip, _, hir⟩ := List.exists_of_findSome?_eq_some hi
              have hr := indirectFromImpl_eq hir
              rw [Option.some.injEq] at h
              rw [h] at hr
              cases hts : ImplSynItem.from_impl_item ip with
              | none => rw [hts] at hr; simp at hr
              | some is => rw [hts] at hr; simp at hr
            | none =>
              simp only [hi] at h
              exact Option.noConfusion h

/-- C6 counterexample: resolving the default method `m::Tr::dm` in the
indirect pass does not retain its body — the rendered default block is
empty although the original body is `["body()"]`. -/
theorem trait_default_retention_cex :
    ¬ (∀ ts : TraitSynItem, getIndirectItem exMods6 "m::Tr::dm" = some ("m", .trait ts) →
        ∀ f ∈ ts.fns, f.item.default = some ["body()"]) := by
  intro hcl
  have h := hcl exTs6 (by decide) ⟨"m::Tr::dm", ⟨"fn dm()", some []⟩⟩ (by decide)
  simp at h

theorem getIndirect_trait (mods : List ModContext) (a m : String) (ts : TraitSynItem)
    (h : getIndirectItem mods a = some (m, .trait ts)) :
    ∃ mc ∈ mods, ∃ t ∈ mc.traits, TraitSynItem.from_trait_item t = some ts := by
  induction mods with
  | nil => simp [getIndirectItem] at h
  | cons mc rest ih =>
    simp only [getIndirectItem] at h
    cases hl : lookupIndirectInMod mc a with
    | none =>
      simp only [hl] at h
      obtain ⟨mc', hmem, hrest⟩ := ih h
      exact ⟨mc', List.mem_cons_of_mem _ hmem, hrest⟩
    | some r =>
      simp only [hl] at h
      cases hr : r with
      | none => rw [hr] at h; simp at h
      | some app =>
        rw [hr] at h
        simp only [Option.map_some', Option.some.injEq, Prod.mk.injEq] at h
        obtain ⟨hm, happ⟩ := h
        rw [hr, happ] at hl
        obtain ⟨t, htmem, hts⟩ := lookupIndirect_trait mc a ts hl
        exact ⟨mc, List.mem_cons_self _ _, t, htmem, hts⟩

/-- C6 amended: a trait reached in the indirect pass is rendered by
`from_trait_item`, which clears every default method body: each rendered
method's default block, when present, is empty, while its signature comes
from the parsed original member. -/
theorem trait_default_elision (mods : List ModContext) (a m : String) (ts : TraitSynItem)
    (h : getIndirectItem mods a = some (m, .trait ts)) :
    ∀ f ∈ ts.fns, (f.item.default = none ∨ f.item.default = some [])
      ∧ ∃ mc ∈ mods, ∃ t ∈ mc.traits, ∃ tf ∈ t.fns, ∃ r, tf.codes = some r
          ∧ f.name = tf.name ∧ f.item.sig = r.sig := by
  obtain ⟨mc, hmc, t, ht, hts⟩ := getIndirect_trait mods a m ts h
  intro f hf
  obtain ⟨tf, htf, r, hcodes, hname, hitem⟩ := from_trait_item_fns hts f hf
  constructor
  · rw [hitem]
    cases hd : r.default with
    | none => exact Or.inl (by simp [clearTraitDefault, hd])
    | some stmts => exact Or.inr (by simp [clearTraitDefault, hd])
  · exact ⟨mc, hmc, t, ht, tf, htf, r, hcodes, hname, by rw [hitem]; rfl⟩

/-- Witness for `trait_default_elision`: the trait shell for `m::Tr::dm`
renders the default method with an empty body and the original
signature. -/
theorem trait_default_elision_witness :
    getIndirectItem exMods6 "m::Tr::dm" = some ("m", .trait exTs6)
    ∧ ((⟨"m::Tr::dm", ⟨"fn dm()", some []⟩⟩ : TraitFnSynItem).item.default = none
        ∨ (⟨"m::Tr::dm", ⟨"fn dm()", some []⟩⟩ : TraitFnSynItem).item.default
          = some []) := by
  refine ⟨by decide, ?_⟩
  exact (trait_default_elision exMods6 "m::Tr::dm" "m" exTs6 (by decide)
    ⟨"m::Tr::dm", ⟨"fn dm()", some []⟩⟩ (by decide)).1

/-! ## Name-only deduplication in the module collections (`add_fn`) -/

/-- C7 counterexample: inserting a second declaration with the same
qualified name but different source text does NOT replace the first —
`BTreeSet::insert` keeps the element already present, so the collection
still holds the first declaration's text. -/
theorem dedup_replace_cex :
    (exMod7.add_fn exFnB).fns = [exFnA]
    ∧ exFnA.codes ≠ exFnB.codes
    ∧ (exMod7.add_fn exFnB).fns ≠ [exFnB] :=
  ⟨by decide, by decide, by decide⟩

theorem strLt_asymm {a b : String} (h : strLt a b) : ¬ strLt b a :=
  fun h2 => strLt_irrefl a (strLt_trans h h2)

theorem btreeInsertFn_collision (x : FnItem) :
    ∀ l : List FnItem, List.Pairwise (fun p q => strLt p.name q.name) l →
      (∃ y ∈ l, y.name = x.name) → btreeInsertFn x l = l := by
  intro l
  induction l with
  | nil => intro _ hcol; simp at hcol
  | cons y ys ih =>
    intro hp hcol
    have hhead := (List.pairwise_cons.1 hp).1
    have htail := (List.pairwise_cons.1 hp).2
    simp only [btreeInsertFn]
    obtain ⟨z, hz, hzn⟩ := hcol
    rcases List.mem_cons.1 hz with hzy | hzys
    · have hyx : y.name = x.name := by rw [← hzy, hzn]
      rw [if_neg (by rw [hyx]; simpa [strLtB] using strLt_irrefl x.name),
        if_pos (by simp [hyx])]
    · have hlt : strLt y.name x.name := by
        rw [← hzn]; exact hhead z hzys
      rw [if_neg (by simpa [strLtB] using strLt_asymm hlt),
        if_neg (by simp; intro he; rw [he] at hlt; exact strLt_irrefl _ hlt)]
      rw [ih htail ⟨z, hzys, hzn⟩]

/-- C7 amended: named declaration kinds compare equal and order by
qualified name alone, but inserting a second declaration carrying the same
name into a module's collection keeps the FIRST one: on a collision
`add_fn` leaves the module unchanged, so the collection afterwards still
holds the first declaration's text. -/
theorem dedup_keeps_first (mc : ModContext) (x : FnItem)
    (hsorted : List.Pairwise (fun p q => strLt p.name q.name) mc.fns)
    (hcol : ∃ y ∈ mc.fns, y.name = x.name) :
    mc.add_fn x = mc
    ∧ (∀ a b : FnItem, fnItemEqB a b = true ↔ a.name = b.name)
    ∧ (∀ a b : FnItem, fnItemCmp a b = .eq ↔ a.name = b.name) := by
  refine ⟨?_, ?_, ?_⟩
  · unfold ModContext.add_fn
    rw [btreeInsertFn_collision x mc.fns hsorted hcol]
  · intro a b
    simp [fnItemEqB]
  · intro a b
    unfold fnItemCmp
    by_cases h1 : strLtB a.name b.name = true
    · rw [if_pos h1]
      simp only [reduceCtorEq, false_iff]
      intro he
      rw [he] at h1
      exact strLt_irrefl _ (strLtB_iff.1 h1)
    · rw [if_neg h1]
      by_cases h2 : (a.name == b.name) = true
      · rw [if_pos h2]
        simpa using h2
      · rw [if_neg h2]
        simp only [reduceCtorEq, false_iff]
        intro he
        exact h2 (by simp [he])

/-- Witness for `dedup_keeps_first`: the collision of `exFnB` with the
already present `exFnA` leaves the module unchanged. -/
theorem dedup_keeps_first_witness :
    exMod7.add_fn exFnB = exMod7 ∧ (fnItemEqB exFnA exFnB = true ↔ True) := by
  have h := dedup_keeps_first exMod7 exFnB (by decide) ⟨exFnA, by decide, by decide⟩
  exact ⟨h.1, by simp [(h.2.1 exFnA exFnB).2 (by decide)]⟩

/-! ## Multi-match candidacy (closure vs assembly) -/

/-- C8 counterexample: `m::x` resolves both to a free function and to a
struct, but the assembly of the direct pass renders no struct at all —
only the first match (the function) becomes a candidate. -/
theorem multi_match_cex :
    exMod8.structs.map (fun s => s.name) = ["m::x"]
    ∧ (allItems (ParseContext.parse_direct_applications exMods8 ["m::x"] [])).all
        (fun it => match it with
          | .iStruct _ => false
          | _ => true) = true
    ∧ (allItems (ParseContext.parse_direct_applications exMods8 ["m::x"] [])).any
        (fun it => match it with
          | .iFn f => f.name == "m::x"
          | _ => false) = true :=
  ⟨by decide, by decide, by decide⟩

theorem mem_succs_of_mod {mods : List ModContext} {mc : ModContext} {a y : String}
    (hmc : mc ∈ mods) (hy : y ∈ succsMod a mc) : y ∈ succs mods a := by
  simp only [succs, List.mem_flatMap]
  exact ⟨mc, hmc, hy⟩

/-- C8 amended: in the closure computation every matching declaration of
every kind contributes its reference set (multi-match candidacy holds
there), but in assembly the lookup returns only the first match in scan
order: a module whose `fns` contain the name resolves to that function and
nothing else. -/
theorem multi_match_amended (mods : List ModContext) (a : String) :
    (∀ mc ∈ mods,
      (∀ f ∈ mc.fns, f.name = a → ∀ y ∈ f.applications, y ∈ succs mods a)
      ∧ (∀ e ∈ mc.enums, e.name = a → ∀ y ∈ e.applications, y ∈ succs mods a)
      ∧ (∀ s ∈ mc.structs, s.name = a → ∀ y ∈ s.applcaitions, y ∈ succs mods a)
      ∧ (∀ u ∈ mc.unions, u.name = a → ∀ y ∈ u.applications, y ∈ succs mods a)
      ∧ (∀ t ∈ mc.traits, t.name = a → ∀ y ∈ t.applications, y ∈ succs mods a)
      ∧ (∀ ip ∈ mc.impls,
          (ip.struct_name = a → ∀ y ∈ ip.applications, y ∈ succs mods a)
          ∧ (ip.trait_name = some a → ∀ y ∈ ip.applications, y ∈ succs mods a)
          ∧ (∀ f ∈ ip.fns, f.name = a → ∀ y ∈ f.applications, y ∈ succs mods a)))
    ∧ (∀ mc f, mc.fns.find? (fun g => g.name == a) = some f →
        lookupDirectInMod mc a = some (f.codes.map (fun r => .fn ⟨f.name, r⟩))) := by
  constructor
  · intro mc hmc
    refine ⟨?_, ?_, ?_, ?_, ?_, ?_⟩
    · intro f hf hfa y hy
      refine mem_succs_of_mod hmc ?_
      simp only [succsMod, List.mem_append, List.mem_flatMap, List.mem_filter, or_assoc]
      exact Or.inl ⟨f, ⟨hf, by simp [hfa]⟩, hy⟩
    · intro e he hea y hy
      refine mem_succs_of_mod hmc ?_
      simp only [succsMod, List.mem_append, List.mem_flatMap, List.mem_filter, or_assoc]
      exact Or.inr (Or.inl ⟨e, ⟨he, by simp [hea]⟩, hy⟩)
    · intro s hs hsa y hy
      refine mem_succs_of_mod hmc ?_
      simp only [succsMod, List.mem_append, List.mem_flatMap, List.mem_filter, or_assoc]
      exact Or.inr (Or.inr (Or.inl ⟨s, ⟨hs, by simp [hsa]⟩, hy⟩))
    · intro u hu hua y hy
      refine mem_succs_of_mod hmc ?_
      simp only [succsMod, List.mem_append, List.mem_flatMap, List.mem_filter, or_assoc]
      exact Or.inr (Or.inr (Or.inr (Or.inl ⟨u, ⟨hu, by simp [hua]⟩, hy⟩)))
    · intro t ht hta y hy
      refine mem_succs_of_mod hmc ?_
      simp only [succsMod, List.mem_append, List.mem_flatMap, List.mem_filter, or_assoc]
      exact Or.inr (Or.inr (Or.inr (Or.inr (Or.inl ⟨t, ⟨ht, by simp [hta]⟩, hy⟩))))
    · intro ip hip
      refine ⟨?_, ?_, ?_⟩
      · intro hsa y hy
        refine mem_succs_of_mod hmc ?_
        simp only [succsMod, List.mem_append, List.mem_flatMap, List.mem_filter, or_assoc]
        refine Or.inr (Or.inr (Or.inr (Or.inr (Or.inr ⟨ip, hip, ?_⟩))))
        exact Or.inl (by rw [if_pos (by simp [hsa])]; exact hy)
      · intro hta y hy
        refine mem_succs_of_mod hmc ?_
        simp only [succsMod, List.mem_append, List.mem_flatMap, List.mem_filter, or_assoc]
        refine Or.inr (Or.inr (Or.inr (Or.inr (Or.inr ⟨ip, hip, ?_⟩))))
        exact Or.inr (Or.inl (by rw [if_pos (by simp [hta])]; exact hy))
      · intro f hf hfa y hy
        refine mem_succs_of_mod hmc ?_
        simp only [succsMod, List.mem_append, List.mem_flatMap, List.mem_filter, or_assoc]
        refine Or.inr (Or.inr (Or.inr (Or.inr (Or.inr ⟨ip, hip, ?_⟩))))
        exact Or.inr (Or.inr ⟨f, ⟨hf, by simp [hfa]⟩, hy⟩)
  · intro mc f hfind
    unfold lookupDirectInMod
    rw [hfind]

/-- Witness for `multi_match_amended`: at the doubly-matching name `m::x`
both the function's and the struct's references flow into the closure,
while the assembly lookup resolves to the function. -/
theorem multi_match_amended_witness :
    ("m::fa" ∈ succs exMods8 "m::x") ∧ ("m::sa" ∈ succs exMods8 "m::x")
    ∧ lookupDirectInMod exMod8 "m::x"
      = some (some (.fn ⟨"m::x", ⟨"fn x()", ["xbody"]⟩⟩)) := by
  have h := multi_match_amended exMods8 "m::x"
  have hmc : exMod8 ∈ exMods8 := by decide
  refine ⟨?_, ?_, ?_⟩
  · exact (h.1 exMod8 hmc).1 ⟨"m::x", some ⟨"fn x()", ["xbody"]⟩, ["m::fa"]⟩
      (by decide) (by decide) "m::fa" (by decide)
  · exact (h.1 exMod8 hmc).2.2.1 ⟨"m::x", some "struct x;", ["m::sa"]⟩
      (by decide) (by decide) "m::sa" (by decide)
  · have := h.2 exMod8 ⟨"m::x", some ⟨"fn x()", ["xbody"]⟩, ["m::fa"]⟩ (by decide)
    simpa using this

/-! ## Bucket membership under insertions (used for selection/ordering) -/

theorem modifyFirst_mem {α : Type} {p : α → Bool} {g : α → α} :
    ∀ {l : List α} {x : α}, x ∈ modifyFirst p g l → x ∈ l ∨ ∃ y ∈ l, x = g y := by
  intro l
  induction l with
  | nil => intro x hx; simp [modifyFirst] at hx
  | cons y ys ih =>
    intro x hx
    simp only [modifyFirst] at hx
    by_cases hp : p y = true
    · rw [if_pos hp] at hx
      rcases List.mem_cons.1 hx with hgy | hys
      · exact Or.inr ⟨y, List.mem_cons_self _ _, hgy⟩
      · exact Or.inl (List.mem_cons_of_mem _ hys)
    · rw [if_neg hp] at hx
      rcases List.mem_cons.1 hx with hxy | hys
      · exact Or.inl (hxy ▸ List.mem_cons_self _ _)
      · rcases ih hys with h | ⟨z, hz, hxz⟩
        · exact Or.inl (List.mem_cons_of_mem _ h)
        · exact Or.inr ⟨z, List.mem_cons_of_mem _ hz, hxz⟩

theorem directInsertApp_simple (app : SynApplication) (sf : SynFile) :
    (directInsertApp app sf).name = sf.name
    ∧ (directInsertApp app sf).uses = sf.uses
    ∧ (directInsertApp app sf).statics = sf.statics
    ∧ (directInsertApp app sf).consts = sf.consts
    ∧ (directInsertApp app sf).macros = sf.macros
    ∧ (directInsertApp app sf).ty_aliases = sf.ty_aliases
    ∧ (directInsertApp app sf).trait_aliases = sf.trait_aliases := by
  cases app with
  | fn f => exact ⟨rfl, rfl, rfl, rfl, rfl, rfl, rfl⟩
  | enum e => exact ⟨rfl, rfl, rfl, rfl, rfl, rfl, rfl⟩
  | struct st => exact ⟨rfl, rfl, rfl, rfl, rfl, rfl, rfl⟩
  | union u => exact ⟨rfl, rfl, rfl, rfl, rfl, rfl, rfl⟩
  | trait t =>
    simp only [directInsertApp]
    by_cases hc : (sf.traits.any fun x => x.name == t.name) = true
    · rw [if_pos hc]; exact ⟨rfl, rfl, rfl, rfl, rfl, rfl, rfl⟩
    · rw [if_neg hc]; exact ⟨rfl, rfl, rfl, rfl, rfl, rfl, rfl⟩
  | impl i =>
    simp only [directInsertApp]
    by_cases hc : (sf.impls.any fun x => x.name == i.name) = true
    · rw [if_pos hc]; exact ⟨rfl, rfl, rfl, rfl, rfl, rfl, rfl⟩
    · rw [if_neg hc]; exact ⟨rfl, rfl, rfl, rfl, rfl, rfl, rfl⟩

theorem indirectInsertApp_simple (app : SynApplication) (sf : SynFile) :
    (indirectInsertApp app sf).name = sf.name
    ∧ (indirectInsertApp app sf).uses = sf.uses
    ∧ (indirectInsertApp app sf).statics = sf.statics
    ∧ (indirectInsertApp app sf).consts = sf.consts
    ∧ (indirectInsertApp app sf).macros = sf.macros
    ∧ (indirectInsertApp app sf).ty_aliases = sf.ty_aliases
    ∧ (indirectInsertApp app sf).trait_aliases = sf.trait_aliases := by
  cases app with
  | fn f =>
    simp only [indirectInsertApp]
    by_cases hc : (sf.fns.any fun x => x.name == f.name) = true
    · rw [if_pos hc]; exact ⟨rfl, rfl, rfl, rfl, rfl, rfl, rfl⟩
    · rw [if_neg hc]; exact ⟨rfl, rfl, rfl, rfl, rfl, rfl, rfl⟩
  | enum e =>
    simp only [indirectInsertApp]
    by_cases hc : (sf.enums.any fun x => x.name == e.name) = true
    · rw [if_pos hc]; exact ⟨rfl, rfl, rfl, rfl, rfl, rfl, rfl⟩
    · rw [if_neg hc]; exact ⟨rfl, rfl, rfl, rfl, rfl, rfl, rfl⟩
  | struct st =>
    simp only [indirectInsertApp]
    by_cases hc : (sf.structs.any fun x => x.name == st.name) = true
    · rw [if_pos hc]; exact ⟨rfl, rfl, rfl, rfl, rfl, rfl, rfl⟩
    · rw [if_neg hc]; exact ⟨rfl, rfl, rfl, rfl, rfl, rfl, rfl⟩
  | union u =>
    simp only [indirectInsertApp]
    by_cases hc : (sf.unions.any fun x => x.name == u.name) = true
    · rw [if_pos hc]; exact ⟨rfl, rfl, rfl, rfl, rfl, rfl, rfl⟩
    · rw [if_neg hc]; exact ⟨rfl, rfl, rfl, rfl, rfl, rfl, rfl⟩
  | trait t =>
    simp only [indirectInsertApp]
    by_cases hc : (sf.traits.any fun x => x.name == t.name) = true
    · rw [if_pos hc]; exact ⟨rfl, rfl, rfl, rfl, rfl, rfl, rfl⟩
    · rw [if_neg hc]; exact ⟨rfl, rfl, rfl, rfl, rfl, rfl, rfl⟩
  | impl i =>
    simp only [indirectInsertApp]
    by_cases hc : (sf.impls.any fun x => x.name == i.name) = true
    · rw [if_pos hc]; exact ⟨rfl, rfl, rfl, rfl, rfl, rfl, rfl⟩
    · rw [if_neg hc]; exact ⟨rfl, rfl, rfl, rfl, rfl, rfl, rfl⟩

theorem bucketOrigin_of_simple {mods : List ModContext} {sf sf' : SynFile}
    (hs : sf'.name = sf.name ∧ sf'.uses = sf.uses ∧ sf'.statics = sf.statics
      ∧ sf'.consts = sf.consts ∧ sf'.macros = sf.macros
      ∧ sf'.ty_aliases = sf.ty_aliases ∧ sf'.trait_aliases = sf.trait_aliases)
    (h : BucketOrigin mods sf) : BucketOrigin mods sf' := by
  obtain ⟨mc, hmc, hname, hu, hst, hc, hm, hty, hta⟩ := h
  obtain ⟨e1, e2, e3, e4, e5, e6, e7⟩ := hs
  exact ⟨mc, hmc, by rw [e1, hname], by rw [e2, hu], by rw [e3, hst], by rw [e4, hc],
    by rw [e5, hm], by rw [e6, hty], by rw [e7, hta]⟩

theorem replaceFirstTraitFn_names (a : String) (new : RustTraitFn) :
    ∀ l : List TraitFnSynItem,
      (replaceFirstTraitFn a new l).map (fun f => f.name) = l.map (fun f => f.name) := by
  intro l
  induction l with
  | nil => rfl
  | cons g gs ih =>
    simp only [replaceFirstTraitFn]
    by_cases hg : (g.name == a) = true
    · rw [if_pos hg]
      simp only [List.map_cons, ih]
      rw [show a = g.name from ((beq_iff_eq.1 hg)).symm]
    · rw [if_neg hg]
      simp only [List.map_cons, ih]

theorem replaceFirstImplFn_names (a : String) (new : RustImplFn) :
    ∀ l : List ImplFnSynItem,
      (replaceFirstImplFn a new l).map (fun f => f.name) = l.map (fun f => f.name) := by
  intro l
  induction l with
  | nil => rfl
  | cons g gs ih =>
    simp only [replaceFirstImplFn]
    by_cases hg : (g.name == a) = true
    · rw [if_pos hg]
      simp only [List.map_cons, ih]
      rw [show a = g.name from ((beq_iff_eq.1 hg)).symm]
    · rw [if_neg hg]
      simp only [List.map_cons, ih]

theorem modifyFirst_map_eq {α β : Type} {p : α → Bool} {g : α → α} {f : α → β}
    (hf : ∀ x, f (g x) = f x) :
    ∀ l : List α, (modifyFirst p g l).map f = l.map f := by
  intro l
  induction l with
  | nil => rfl
  | cons y ys ih =>
    simp only [modifyFirst]
    by_cases hp : p y = true
    · rw [if_pos hp]
      simp only [List.map_cons, hf]
    · rw [if_neg hp]
      simp only [List.map_cons, ih]

theorem add_direct_trait_name (self other : TraitSynItem) :
    (self.add_direct_application_trait other).name = self.name := rfl

theorem add_direct_impl_name (self other : ImplSynItem) :
    (self.add_direct_application_impl other).name = self.name := rfl

theorem directInsertApp_names (app : SynApplication) (sf : SynFile) :
    ∀ n ∈ namedDeclNames (directInsertApp app sf),
      n ∈ namedDeclNames sf ∨ n = app.name := by
  intro n hn
  cases app with
  | fn f =>
    simp only [directInsertApp, namedDeclNames, List.mem_append] at hn ⊢
    have h1 : n ∈ (sf.fns ++ [f]).map (fun x => x.name) ↔
        n ∈ sf.fns.map (fun x => x.name) ∨ n = f.name := by simp [eq_comm]
    rw [h1] at hn
    simp only [SynApplication.name]
    tauto
  | enum e =>
    simp only [directInsertApp, namedDeclNames, List.mem_append] at hn ⊢
    have h1 : n ∈ (sf.enums ++ [e]).map (fun x => x.name) ↔
        n ∈ sf.enums.map (fun x => x.name) ∨ n = e.name := by simp [eq_comm]
    rw [h1] at hn
    simp only [SynApplication.name]
    tauto
  | struct st =>
    simp only [directInsertApp, namedDeclNames, List.mem_append] at hn ⊢
    have h1 : n ∈ (sf.structs ++ [st]).map (fun x => x.name) ↔
        n ∈ sf.structs.map (fun x => x.name) ∨ n = st.name := by simp [eq_comm]
    rw [h1] at hn
    simp only [SynApplication.name]
    tauto
  | union u =>
    simp only [directInsertApp, namedDeclNames, List.mem_append] at hn ⊢
    have h1 : n ∈ (sf.unions ++ [u]).map (fun x => x.name) ↔
        n ∈ sf.unions.map (fun x => x.name) ∨ n = u.name := by simp [eq_comm]
    rw [h1] at hn
    simp only [SynApplication.name]
    tauto
  | trait t =>
    simp only [directInsertApp] at hn
    by_cases hc : sf.traits.any (fun x => x.name == t.name) = true
    · rw [if_pos hc] at hn
      simp only [namedDeclNames, List.mem_append] at hn ⊢
      have h1 : (modifyFirst (fun x => x.name == t.name)
          (fun old => old.add_direct_application_trait t) sf.traits).map (fun x => x.name)
          = sf.traits.map (fun x => x.name) :=
        @modifyFirst_map_eq _ _ (fun x => x.name == t.name)
          (fun old => old.add_direct_application_trait t) (fun x => x.name)
          (fun x => rfl) sf.traits
      rw [h1] at hn
      tauto
    · rw [if_neg hc] at hn
      simp only [namedDeclNames, List.mem_append] at hn ⊢
      have h1 : n ∈ (sf.traits ++ [t]).map (fun x => x.name) ↔
          n ∈ sf.traits.map (fun x => x.name) ∨ n = t.name := by simp [eq_comm]
      rw [h1] at hn
      simp only [SynApplication.name]
      tauto
  | impl i =>
    simp only [directInsertApp] at hn
    by_cases hc : sf.impls.any (fun x => x.name == i.name) = true
    · rw [if_pos hc] at hn
      simp only [namedDeclNames, List.mem_append] at hn ⊢
      have h1 : (modifyFirst (fun x => x.name == i.name)
          (fun old => old.add_direct_application_impl i) sf.impls).map (fun x => x.name)
          = sf.impls.map (fun x => x.name) :=
        @modifyFirst_map_eq _ _ (fun x => x.name == i.name)
          (fun old => old.add_direct_application_impl i) (fun x => x.name)
          (fun x => rfl) sf.impls
      rw [h1] at hn
      tauto
    · rw [if_neg hc] at hn
      simp only [namedDeclNames, List.mem_append] at hn ⊢
      have h1 : n ∈ (sf.impls ++ [i]).map (fun x => x.name) ↔
          n ∈ sf.impls.map (fun x => x.name) ∨ n = i.name := by simp [eq_comm]
      rw [h1] at hn
      simp only [SynApplication.name]
      tauto

theorem indirectInsertApp_names (app : SynApplication) (sf : SynFile) :
    ∀ n ∈ namedDeclNames (indirectInsertApp app sf),
      n ∈ namedDeclNames sf ∨ n = app.name := by
  intro n hn
  cases app with
  | fn f =>
    simp only [indirectInsertApp] at hn
    by_cases hc : sf.fns.any (fun x => x.name == f.name) = true
    · rw [if_pos hc] at hn
      exact Or.inl hn
    · rw [if_neg hc] at hn
      simp only [namedDeclNames, List.mem_append] at hn ⊢
      have h1 : n ∈ (sf.fns ++ [f]).map (fun x => x.name) ↔
          n ∈ sf.fns.map (fun x => x.name) ∨ n = f.name := by simp [eq_comm]
      rw [h1] at hn
      simp only [SynApplication.name]
      tauto
  | enum e =>
    simp only [indirectInsertApp] at hn
    by_cases hc : sf.enums.any (fun x => x.name == e.name) = true
    · rw [if_pos hc] at hn
      exact Or.inl hn
    · rw [if_neg hc] at hn
      simp only [namedDeclNames, List.mem_append] at hn ⊢
      have h1 : n ∈ (sf.enums ++ [e]).map (fun x => x.name) ↔
          n ∈ sf.enums.map (fun x => x.name) ∨ n = e.name := by simp [eq_comm]
      rw [h1] at hn
      simp only [SynApplication.name]
      tauto
  | struct st =>
    simp only [indirectInsertApp] at hn
    by_cases hc : sf.structs.any (fun x => x.name == st.name) = true
    · rw [if_pos hc] at hn
      exact Or.inl hn
    · rw [if_neg hc] at hn
      simp only [namedDeclNames, List.mem_append] at hn ⊢
      have h1 : n ∈ (sf.structs ++ [st]).map (fun x => x.name) ↔
          n ∈ sf.structs.map (fun x => x.name) ∨ n = st.name := by simp [eq_comm]
      rw [h1] at hn
      simp only [SynApplication.name]
      tauto
  | union u =>
    simp only [indirectInsertApp] at hn
    by_cases hc : sf.unions.any (fun x => x.name == u.name) = true
    · rw [if_pos hc] at hn
      exact Or.inl hn
    · rw [if_neg hc] at hn
      simp only [namedDeclNames, List.mem_append] at hn ⊢
      have h1 : n ∈ (sf.unions ++ [u]).map (fun x => x.name) ↔
          n ∈ sf.unions.map (fun x => x.name) ∨ n = u.name := by simp [eq_comm]
      rw [h1] at hn
      simp only [SynApplication.name]
      tauto
  | trait t =>
    simp only [indirectInsertApp] at hn
    by_cases hc : sf.traits.any (fun x => x.name == t.name) = true
    · rw [if_pos hc] at hn
      exact Or.inl hn
    · rw [if_neg hc] at hn
      simp only [namedDeclNames, List.mem_append] at hn ⊢
      have h1 : n ∈ (sf.traits ++ [t]).map (fun x => x.name) ↔
          n ∈ sf.traits.map (fun x => x.name) ∨ n = t.name := by simp [eq_comm]
      rw [h1] at hn
      simp only [SynApplication.name]
      tauto
  | impl i =>
    simp only [indirectInsertApp] at hn
    by_cases hc : sf.impls.any (fun x => x.name == i.name) = true
    · rw [if_pos hc] at hn
      exact Or.inl hn
    · rw [if_neg hc] at hn
      simp only [namedDeclNames, List.mem_append] at hn ⊢
      have h1 : n ∈ (sf.impls ++ [i]).map (fun x => x.name) ↔
          n ∈ sf.impls.map (fun x => x.name) ∨ n = i.name := by simp [eq_comm]
      rw [h1] at hn
      simp only [SynApplication.name]
      tauto

theorem pass_inv (mods : List ModContext) (sel : List String)
    (getF : List ModContext → String → Option (String × SynApplication))
    (insF : SynApplication → SynFile → SynFile)
    (hsimple : ∀ app sf, (insF app sf).name = sf.name
      ∧ (insF app sf).uses = sf.uses ∧ (insF app sf).statics = sf.statics
      ∧ (insF app sf).consts = sf.consts ∧ (insF app sf).macros = sf.macros
      ∧ (insF app sf).ty_aliases = sf.ty_aliases
      ∧ (insF app sf).trait_aliases = sf.trait_aliases)
    (hnames : ∀ app sf, ∀ n ∈ namedDeclNames (insF app sf),
      n ∈ namedDeclNames sf ∨ n = app.name)
    (hget : ∀ a m app, getF mods a = some (m, app) →
      getDirectItem mods a = some (m, app) ∨ getIndirectItem mods a = some (m, app)) :
    ∀ (l : List String), (∀ a ∈ l, a ∈ sel) →
    ∀ (sfs : List SynFile), (∀ sf ∈ sfs, BucketOrigin mods sf ∧ NameProvenance mods sel sf) →
    ∀ sf ∈ l.foldl (fun sfs a =>
        match getF mods a with
        | none => sfs
        | some (m, app) => addToSynFiles mods m (insF app) sfs) sfs,
      BucketOrigin mods sf ∧ NameProvenance mods sel sf := by
  intro l
  induction l with
  | nil => intro _ sfs hsfs sf hsf; exact hsfs sf hsf
  | cons a as ih =>
    intro hsub sfs hsfs sf hsf
    simp only [List.foldl_cons] at hsf
    refine ih (fun b hb => hsub b (List.mem_cons_of_mem _ hb)) _ ?_ sf hsf
    intro sf' hsf'
    cases hres : getF mods a with
    | none =>
      rw [hres] at hsf'
      exact hsfs sf' hsf'
    | some r =>
      obtain ⟨m, app⟩ := r
      rw [hres] at hsf'
      have hsf2 : sf' ∈ addToSynFiles mods m (insF app) sfs := hsf'
      unfold addToSynFiles at hsf2
      by_cases hany : (sfs.any fun x => x.name == m) = true
      · rw [if_pos hany] at hsf2
        rcases modifyFirst_mem hsf2 with hold | ⟨y, hy, rfl⟩
        · exact hsfs sf' hold
        · have hQ := hsfs y hy
          constructor
          · exact bucketOrigin_of_simple (hsimple app y) hQ.1
          · intro n hn
            rcases hnames app y n hn with hOld | hNew
            · exact hQ.2 n hOld
            · exact ⟨a, hsub a (List.mem_cons_self _ _), m, app, hget a m app hres, hNew.symm⟩
      · rw [if_neg hany] at hsf2
        cases hfind : mods.find? (fun mc => mc.name == m) with
        | some mc =>
          rw [hfind] at hsf2
          rcases List.mem_append.1 hsf2 with hold | hnew
          · exact hsfs sf' hold
          · rcases List.mem_singleton.1 hnew with rfl
            have horigin : BucketOrigin mods (SynFile.new mc) :=
              ⟨mc, List.mem_of_find?_eq_some hfind, rfl, rfl, rfl, rfl, rfl, rfl, rfl⟩
            constructor
            · exact bucketOrigin_of_simple (hsimple app _) horigin
            · intro n hn
              rcases hnames app _ n hn with hOld | hNew
              · exfalso
                simp [namedDeclNames, SynFile.new] at hOld
              · exact ⟨a, hsub a (List.mem_cons_self _ _), m, app, hget a m app hres, hNew.symm⟩
        | none =>
          rw [hfind] at hsf2
          exact hsfs sf' hsf2

/-- C10 counterexample: extracting `m::f` from a module that also holds a
constant produces a file containing the constant, although the constant is
not the rendering of any direct- or indirect-selected name: the output is
not selection-only. -/
theorem selection_only_cex :
    selectionOnlyB exMods10 ["m::f"] ["m::f"]
      (ParseContext.parse_indirect_applications exMods10 ["m::f"]
        (ParseContext.parse_direct_applications exMods10 ["m::f"] [])) = false
    ∧ Item.iConst "const C: i32 = 0;" ∈ allItems
        (ParseContext.parse_indirect_applications exMods10 ["m::f"]
          (ParseContext.parse_direct_applications exMods10 ["m::f"] []))
    ∧ (["m::f"] ++ ["m::f"]).all
        (fun a => !(itemFromName exMods10 a (Item.iConst "const C: i32 = 0;"))) = true :=
  ⟨by decide, by decide, by decide⟩

/-- C10 amended: besides the module-name headers, a context file contains
the named declarations resolved from the direct and indirect sets — every
named declaration in a bucket carries the name of a declaration resolved
from a selected name — together with, for each touched module, ALL of that
module's parseable simple declarations (imports, statics, constants,
macros, type aliases, trait aliases), which `SynFile::new` copies
wholesale regardless of the selection. -/
theorem selection_wholesale (mods : List ModContext) (direct ind : List String) :
    ∀ sf ∈ ParseContext.parse_indirect_applications mods ind
        (ParseContext.parse_direct_applications mods direct []),
      BucketOrigin mods sf ∧ NameProvenance mods (direct ++ ind) sf := by
  have hdir := pass_inv mods (direct ++ ind) getDirectItem directInsertApp
    directInsertApp_simple directInsertApp_names
    (fun a m app h => Or.inl h)
    direct (fun a ha => List.mem_append_left _ ha) [] (by simp)
  have hind := pass_inv mods (direct ++ ind) getIndirectItem indirectInsertApp
    indirectInsertApp_simple indirectInsertApp_names
    (fun a m app h => Or.inr h)
    ind (fun a ha => List.mem_append_right _ ha)
    (ParseContext.parse_direct_applications mods direct []) hdir
  exact hind

/-- Witness for `selection_wholesale`: the single bucket produced for
`m::f` originates from module `m` (the constant is its wholesale copy) and
its one named declaration is the resolution of the selected `m::f`. -/
theorem selection_wholesale_witness :
    BucketOrigin exMods10
      ⟨"m", [], [], ["const C: i32 = 0;"], [⟨"m::f", ⟨"fn f()", ["fb"]⟩⟩],
        [], [], [], [], [], [], [], []⟩
    ∧ NameProvenance exMods10 (["m::f"] ++ ["m::f"])
      ⟨"m", [], [], ["const C: i32 = 0;"], [⟨"m::f", ⟨"fn f()", ["fb"]⟩⟩],
        [], [], [], [], [], [], [], []⟩ := by
  have h := selection_wholesale exMods10 ["m::f"] ["m::f"]
    ⟨"m", [], [], ["const C: i32 = 0;"], [⟨"m::f", ⟨"fn f()", ["fb"]⟩⟩],
      [], [], [], [], [], [], [], []⟩ (by decide)
  exact h

/-! ## Emission order of `SynFile::to_string` (kind blocks and within-kind
order) -/

theorem pairwise_le_of_const : ∀ (l : List ℕ) (k : ℕ), (∀ y ∈ l, y = k) →
    l.Pairwise (· ≤ ·) := by
  intro l k
  induction l with
  | nil => intro _; exact List.Pairwise.nil
  | cons x xs ih =>
    intro h
    refine List.Pairwise.cons ?_ (ih (fun y hy => h y (List.mem_cons_of_mem _ hy)))
    intro y hy
    rw [h x (List.mem_cons_self _ _), h y (List.mem_cons_of_mem _ hy)]

theorem pairwise_le_append_const : ∀ (l₁ l₂ : List ℕ) (k : ℕ),
    (∀ y ∈ l₁, y = k) → l₂.Pairwise (· ≤ ·) → (∀ y ∈ l₂, k ≤ y) →
    ((l₁ ++ l₂).Pairwise (· ≤ ·)) ∧ ∀ y ∈ l₁ ++ l₂, k ≤ y := by
  intro l₁ l₂ k h1 h2 h3
  constructor
  · refine List.pairwise_append.2 ⟨pairwise_le_of_const l₁ k h1, h2, ?_⟩
    intro a ha b hb
    rw [h1 a ha]
    exact h3 b hb
  · intro y hy
    rcases List.mem_append.1 hy with hl | hr
    · exact le_of_eq (h1 y hl).symm
    · exact h3 y hr

theorem map_kind_const {α : Type} (g : α → Item) (k : ℕ) (hk : ∀ x, (g x).kind = k)
    (l : List α) : ∀ y ∈ (l.map g).map Item.kind, y = k := by
  intro y hy
  simp only [List.map_map, List.mem_map, Function.comp_apply] at hy
  obtain ⟨z, _, rfl⟩ := hy
  exact hk z

theorem to_items_kind_ordered (sf : SynFile) :
    (sf.to_items.map Item.kind).Pairwise (· ≤ ·) := by
  have c1 := map_kind_const Item.iUse 0 (fun _ => rfl) sf.uses
  have c2 := map_kind_const Item.iStatic 1 (fun _ => rfl) sf.statics
  have c3 := map_kind_const Item.iConst 2 (fun _ => rfl) sf.consts
  have c4 := map_kind_const Item.iFn 3 (fun _ => rfl) sf.fns
  have c5 := map_kind_const Item.iMcr 4 (fun _ => rfl) sf.macros
  have c6 := map_kind_const Item.iTyAlias 5 (fun _ => rfl) sf.ty_aliases
  have c7 := map_kind_const Item.iEnum 6 (fun _ => rfl) sf.enums
  have c8 := map_kind_const Item.iStruct 7 (fun _ => rfl) sf.structs
  have c9 := map_kind_const Item.iUnion 8 (fun _ => rfl) sf.unions
  have c10 := map_kind_const Item.iTrait 9 (fun _ => rfl) sf.traits
  have c11 := map_kind_const Item.iTraitAlias 10 (fun _ => rfl) sf.trait_aliases
  have c12 := map_kind_const Item.iImpl 11 (fun _ => rfl) sf.impls
  have h12 : ((sf.impls.map Item.iImpl).map Item.kind).Pairwise (· ≤ ·)
      ∧ ∀ y ∈ (sf.impls.map Item.iImpl).map Item.kind, 11 ≤ y :=
    ⟨pairwise_le_of_const _ 11 c12, fun y hy => le_of_eq (c12 y hy).symm⟩
  have h11 := pairwise_le_append_const _ _ 10 c11 h12.1
    (fun y hy => le_trans (by norm_num : (10 : ℕ) ≤ 11) (h12.2 y hy))
  have h10 := pairwise_le_append_const _ _ 9 c10 h11.1
    (fun y hy => le_trans (by norm_num : (9 : ℕ) ≤ 10) (h11.2 y hy))
  have h9 := pairwise_le_append_const _ _ 8 c9 h10.1
    (fun y hy => le_trans (by norm_num : (8 : ℕ) ≤ 9) (h10.2 y hy))
  have h8 := pairwise_le_append_const _ _ 7 c8 h9.1
    (fun y hy => le_trans (by norm_num : (7 : ℕ) ≤ 8) (h9.2 y hy))
  have h7 := pairwise_le_append_const _ _ 6 c7 h8.1
    (fun y hy => le_trans (by norm_num : (6 : ℕ) ≤ 7) (h8.2 y hy))
  have h6 := pairwise_le_append_const _ _ 5 c6 h7.1
    (fun y hy => le_trans (by norm_num : (5 : ℕ) ≤ 6) (h7.2 y hy))
  have h5 := pairwise_le_append_const _ _ 4 c5 h6.1
    (fun y hy => le_trans (by norm_num : (4 : ℕ) ≤ 5) (h6.2 y hy))
  have h4 := pairwise_le_append_const _ _ 3 c4 h5.1
    (fun y hy => le_trans (by norm_num : (3 : ℕ) ≤ 4) (h5.2 y hy))
  have h3 := pairwise_le_append_const _ _ 2 c3 h4.1
    (fun y hy => le_trans (by norm_num : (2 : ℕ) ≤ 3) (h4.2 y hy))
  have h2 := pairwise_le_append_const _ _ 1 c2 h3.1
    (fun y hy => le_trans (by norm_num : (1 : ℕ) ≤ 2) (h3.2 y hy))
  have h1 := pairwise_le_append_const _ _ 0 c1 h2.1
    (fun y hy => le_trans (by norm_num : (0 : ℕ) ≤ 1) (h2.2 y hy))
  simpa only [SynFile.to_items, List.map_append, List.append_assoc] using h1.1

theorem directFromTrait_shape {a : String} {t : TraitItem} {app : SynApplication}
    (h : directFromTrait a t = some (some app)) :
    ∃ ts, app = SynApplication.trait ts := by
  unfold directFromTrait at h
  by_cases h1 : (t.name == a) = true
  · rw [if_pos h1] at h
    cases hts : TraitSynItem.from_trait_item t with
    | none => rw [hts] at h; simp at h
    | some ts =>
      rw [hts] at h
      simp only [Option.map_some', Option.some.injEq] at h
      exact ⟨ts, h.symm⟩
  · rw [if_neg h1] at h
    cases hf : t.fns.find? (fun f => f.name == a) with
    | none => simp only [hf] at h; exact Option.noConfusion h
    | some tf =>
      simp only [hf] at h
      cases hts : TraitSynItem.from_trait_item t with
      | none => rw [hts] at h; simp at h
      | some ts =>
        rw [hts] at h
        simp only [Option.map_some', Option.some.injEq] at h
        exact ⟨_, h.symm⟩

theorem directFromImpl_shape {a : String} {ip : ImplItem} {app : SynApplication}
    (h : directFromImpl a ip = some (some app)) :
    ∃ s2, app = SynApplication.impl s2 := by
  unfold directFromImpl at h
  by_cases h1 : (ip.struct_name == a) = true
  · rw [if_pos h1] at h
    cases hts : ImplSynItem.from_impl_item ip with
    | none => rw [hts] at h; simp at h
    | some s2 =>
      rw [hts] at h
      simp only [Option.map_some', Option.some.injEq] at h
      exact ⟨s2, h.symm⟩
  · rw [if_neg h1] at h
    by_cases h2 : (ip.trait_name == some a) = true
    · rw [if_pos h2] at h
      cases hts : ImplSynItem.from_impl_item ip with
      | none => rw [hts] at h; simp at h
      | some s2 =>
        rw [hts] at h
        simp only [Option.map_some', Option.some.injEq] at h
        exact ⟨s2, h.symm⟩
    · rw [if_neg h2] at h
      cases hf : ip.fns.find? (fun f => f.name == a) with
      | none => simp only [hf] at h; exact Option.noConfusion h
      | some f =>
        simp only [hf] at h
        cases hts : ImplSynItem.from_impl_item ip with
        | none => rw [hts] at h; simp at h
        | some s2 =>
          rw [hts] at h
          simp only [Option.map_some', Option.some.injEq] at h
          exact ⟨_, h.symm⟩

theorem lookupDirect_fn_name (mc : ModContext) (a : String) (fs : FnSynItem)
    (h : lookupDirectInMod mc a = some (some (.fn fs))) : fs.name = a := by
  unfold lookupDirectInMod at h
  cases hf : mc.fns.find? (fun f => f.name == a) with
  | some f =>
    simp only [hf] at h
    cases hc : f.codes with
    | none => rw [hc] at h; simp at h
    | some orig =>
      rw [hc] at h
      simp only [Option.map_some', Option.some.injEq, SynApplication.fn.injEq] at h
      subst h
      simpa using List.find?_some hf
  | none =>
    simp only [hf] at h
    cases he : mc.enums.find? (fun e => e.name == a) with
    | some e =>
      simp only [he] at h
      cases hc : e.codes with
      | none => rw [hc] at h; simp at h
      | some c => rw [hc] at h; simp at h
    | none =>
      simp only [he] at h
      cases hs : mc.structs.find? (fun s => s.name == a) with
      | some st =>
        simp only [hs] at h
        cases hc : st.codes with
        | none => rw [hc] at h; simp at h
        | some c => rw [hc] at h; simp at h
      | none =>
        simp only [hs] at h
        cases hu : mc.unions.find? (fun u => u.name == a) with
        | some u =>
          simp only [hu] at h
          cases hc : u.codes with
          | none => rw [hc] at h; simp at h
          | some c => rw [hc] at h; simp at h
        | none =>
          simp only [hu] at h
          cases ht : mc.traits.findSome? (directFromTrait a) with
          | some r =>
            simp only [ht] at h
            rw [Option.some.injEq] at h
            obtain ⟨t, _, htr⟩ := List.exists_of_findSome?_eq_some ht
            rw [h] at htr
            obtain ⟨ts, hts⟩ := directFromTrait_shape htr
            exact SynApplication.noConfusion hts
          | none =>
            simp only [ht] at h
            cases hi : mc.impls.findSome? (directFromImpl a) with
            | some r =>
              simp only [hi] at h
              rw [Option.some.injEq] at h
              obtain ⟨ip, _, hir⟩ := List.exists_of_findSome?_eq_some hi
              rw [h] at hir
              obtain ⟨s2, his⟩ := directFromImpl_shape hir
              exact SynApplication.noConfusion his
            | none =>
              simp only [hi] at h
              exact Option.noConfusion h

theorem getDirect_fn_name (mods : List ModContext) (a m : String) (fs : FnSynItem)
    (h : getDirectItem mods a = some (m, .fn fs)) : fs.name = a := by
  induction mods with
  | nil => simp [getDirectItem] at h
  | cons mc rest ih =>
    simp only [getDirectItem] at h
    cases hl : lookupDirectInMod mc a with
    | none =>
      simp only [hl] at h
      exact ih h
    | some r =>
      simp only [hl] at h
      cases hr : r with
      | none => rw [hr] at h; simp at h
      | some app =>
        rw [hr] at h
        simp only [Option.map_some', Option.some.injEq, Prod.mk.injEq] at h
        obtain ⟨hm, happ⟩ := h
        rw [hr, happ] at hl
        exact lookupDirect_fn_name mc a fs hl

theorem getIndirect_fn_name (mods : List ModContext) (a m : String) (fs : FnSynItem)
    (h : getIndirectItem mods a = some (m, .fn fs)) : fs.name = a := by
  induction mods with
  | nil => simp [getIndirectItem] at h
  | cons mc rest ih =>
    simp only [getIndirectItem] at h
    cases hl : lookupIndirectInMod mc a with
    | none =>
      simp only [hl] at h
      exact ih h
    | some r =>
      simp only [hl] at h
      cases hr : r with
      | none => rw [hr] at h; simp at h
      | some app =>
        rw [hr] at h
        simp only [Option.map_some', Option.some.injEq, Prod.mk.injEq] at h
        obtain ⟨hm, happ⟩ := h
        rw [hr, happ] at hl
        exact (lookupIndirect_fn mc a fs hl).1

theorem directInsert_fns_names (mods : List ModContext) :
    ∀ (a m : String) (app : SynApplication) (sf : SynFile),
      getDirectItem mods a = some (m, app) →
      (directInsertApp app sf).fns.map (fun f => f.name) = sf.fns.map (fun f => f.name)
      ∨ (directInsertApp app sf).fns.map (fun f => f.name)
          = sf.fns.map (fun f => f.name) ++ [a] := by
  intro a m app sf hget
  cases app with
  | fn f =>
    right
    have hname : f.name = a := getDirect_fn_name mods a m f hget
    simp [directInsertApp, hname]
  | enum e => exact Or.inl rfl
  | struct st => exact Or.inl rfl
  | union u => exact Or.inl rfl
  | trait t =>
    left
    simp only [directInsertApp]
    by_cases hc : (sf.traits.any fun x => x.name == t.name) = true
    · rw [if_pos hc]
    · rw [if_neg hc]
  | impl i =>
    left
    simp only [directInsertApp]
    by_cases hc : (sf.impls.any fun x => x.name == i.name) = true
    · rw [if_pos hc]
    · rw [if_neg hc]

theorem indirectInsert_fns_names (mods : List ModContext) :
    ∀ (a m : String) (app : SynApplication) (sf : SynFile),
      getIndirectItem mods a = some (m, app) →
      (indirectInsertApp app sf).fns.map (fun f => f.name) = sf.fns.map (fun f => f.name)
      ∨ (indirectInsertApp app sf).fns.map (fun f => f.name)
          = sf.fns.map (fun f => f.name) ++ [a] := by
  intro a m app sf hget
  cases app with
  | fn f =>
    have hname : f.name = a := getIndirect_fn_name mods a m f hget
    simp only [indirectInsertApp]
    by_cases hc : (sf.fns.any fun x => x.name == f.name) = true
    · rw [if_pos hc]; exact Or.inl rfl
    · rw [if_neg hc]
      right
      simp [hname]
  | enum e =>
    left
    simp only [indirectInsertApp]
    by_cases hc : (sf.enums.any fun x => x.name == e.name) = true
    · rw [if_pos hc]
    · rw [if_neg hc]
  | struct st =>
    left
    simp only [indirectInsertApp]
    by_cases hc : (sf.structs.any fun x => x.name == st.name) = true
    · rw [if_pos hc]
    · rw [if_neg hc]
  | union u =>
    left
    simp only [indirectInsertApp]
    by_cases hc : (sf.unions.any fun x => x.name == u.name) = true
    · rw [if_pos hc]
    · rw [if_neg hc]
  | trait t =>
    left
    simp only [indirectInsertApp]
    by_cases hc : (sf.traits.any fun x => x.name == t.name) = true
    · rw [if_pos hc]
    · rw [if_neg hc]
  | impl i =>
    left
    simp only [indirectInsertApp]
    by_cases hc : (sf.impls.any fun x => x.name == i.name) = true
    · rw [if_pos hc]
    · rw [if_neg hc]

theorem pass_fns_sublist (mods : List ModContext)
    (getF : List ModContext → String → Option (String × SynApplication))
    (insF : SynApplication → SynFile → SynFile)
    (hins : ∀ (a m : String) (app : SynApplication) (sf : SynFile),
      getF mods a = some (m, app) →
      (insF app sf).fns.map (fun f => f.name) = sf.fns.map (fun f => f.name)
      ∨ (insF app sf).fns.map (fun f => f.name) = sf.fns.map (fun f => f.name) ++ [a]) :
    ∀ (l acc : List String) (sfs : List SynFile),
      (∀ sf ∈ sfs, List.Sublist (sf.fns.map (fun f => f.name)) acc) →
      ∀ sf ∈ l.foldl (fun sfs a =>
          match getF mods a with
          | none => sfs
          | some (m, app) => addToSynFiles mods m (insF app) sfs) sfs,
        List.Sublist (sf.fns.map (fun f => f.name)) (acc ++ l) := by
  intro l
  induction l with
  | nil =>
    intro acc sfs hsfs sf hsf
    simp only [List.foldl_nil] at hsf
    simpa using hsfs sf hsf
  | cons a as ih =>
    intro acc sfs hsfs sf hsf
    simp only [List.foldl_cons] at hsf
    have hnext : ∀ sf' ∈ (match getF mods a with
        | none => sfs
        | some (m, app) => addToSynFiles mods m (insF app) sfs),
        List.Sublist (sf'.fns.map (fun f => f.name)) (acc ++ [a]) := by
      intro sf' hsf'
      cases hres : getF mods a with
      | none =>
        rw [hres] at hsf'
        exact (hsfs sf' hsf').trans (List.sublist_append_left acc [a])
      | some r =>
        obtain ⟨m, app⟩ := r
        rw [hres] at hsf'
        have hsf2 : sf' ∈ addToSynFiles mods m (insF app) sfs := hsf'
        unfold addToSynFiles at hsf2
        by_cases hany : (sfs.any fun x => x.name == m) = true
        · rw [if_pos hany] at hsf2
          rcases modifyFirst_mem hsf2 with hold | ⟨y, hy, rfl⟩
          · exact (hsfs sf' hold).trans (List.sublist_append_left acc [a])
          · rcases hins a m app y hres with he | he
            · rw [he]
              exact (hsfs y hy).trans (List.sublist_append_left acc [a])
            · rw [he]
              exact List.Sublist.append (hsfs y hy) (List.Sublist.refl [a])
        · rw [if_neg hany] at hsf2
          cases hfind : mods.find? (fun mc => mc.name == m) with
          | some mc =>
            rw [hfind] at hsf2
            rcases List.mem_append.1 hsf2 with hold | hnew
            · exact (hsfs sf' hold).trans (List.sublist_append_left acc [a])
            · rcases List.mem_singleton.1 hnew with rfl
              have hb : ((SynFile.new mc).fns.map (fun f => f.name)) = [] := rfl
              rcases hins a m app (SynFile.new mc) hres with he | he
              · rw [he, hb]
                exact List.nil_sublist _
              · rw [he, hb]
                exact List.Sublist.append (List.nil_sublist acc) (List.Sublist.refl [a])
          | none =>
            rw [hfind] at hsf2
            exact (hsfs sf' hsf2).trans (List.sublist_append_left acc [a])
    have hres2 := ih (acc ++ [a]) _ hnext sf hsf
    simpa [List.append_assoc] using hres2

/-- C9 counterexample: in `exMods9` the direct set is `{m::f, m::z}` and the
indirect (closure) set additionally holds `m::a`, which sorts before both.
The rendered bucket lists its functions as `m::f, m::z, m::a` — the two
direct insertions in sorted order followed by the indirectly added one — so
the within-kind emission order is NOT the qualified-name sort order (it is
not even weakly sorted). -/
theorem canonical_order_cex :
    ((ParseContext.parse_indirect_applications exMods9 ["m::a", "m::f", "m::z"]
        (ParseContext.parse_direct_applications exMods9 ["m::f", "m::z"] [])).map
      (fun sf => sf.fns.map (fun f => f.name))) = [["m::f", "m::z", "m::a"]]
    ∧ ¬ sortedNames ["m::f", "m::z", "m::a"]
    ∧ ¬ List.Pairwise strLe ["m::f", "m::z", "m::a"] := by
  refine ⟨by decide, ?_, by decide⟩
  intro h
  have h' : List.Chain' strLt ["m::f", "m::z", "m::a"] := h
  have h1 := (List.chain'_cons.1 h').2
  have h2 := (List.chain'_cons.1 h1).1
  exact absurd h2 (by decide)

/-- C9 amended: the kind blocks of a bucket are emitted in the fixed
canonical order (the kind indices along `to_items` are monotone), and
within the function kind the order is insertion order: the direct pass
(iterating its set in ascending name order) produces buckets whose function
names form a sorted sublist of the direct set, and the indirect pass only
appends further names drawn from the indirect set after them — so after
both passes the function names of a bucket form a sublist of the direct set
followed by the indirect set, not a globally sorted sequence. -/
theorem canonical_order (mods : List ModContext) (direct ind : List String)
    (hdir : List.Pairwise strLt direct) :
    (∀ sf : SynFile, (sf.to_items.map Item.kind).Pairwise (· ≤ ·))
    ∧ (∀ sf ∈ ParseContext.parse_direct_applications mods direct [],
        List.Sublist (sf.fns.map (fun f => f.name)) direct
        ∧ (sf.fns.map (fun f => f.name)).Pairwise strLt)
    ∧ (∀ sf ∈ ParseContext.parse_indirect_applications mods ind
          (ParseContext.parse_direct_applications mods direct []),
        List.Sublist (sf.fns.map (fun f => f.name)) (direct ++ ind)) := by
  have hbase : ∀ sf ∈ ParseContext.parse_direct_applications mods direct [],
      List.Sublist (sf.fns.map (fun f => f.name)) direct := by
    intro sf hsf
    have hs := pass_fns_sublist mods getDirectItem directInsertApp
      (directInsert_fns_names mods) direct [] []
      (by intro x hx; simp at hx) sf hsf
    rw [List.nil_append] at hs
    exact hs
  refine ⟨to_items_kind_ordered, ?_, ?_⟩
  · intro sf hsf
    exact ⟨hbase sf hsf, List.Pairwise.sublist (hbase sf hsf) hdir⟩
  · intro sf hsf
    exact pass_fns_sublist mods getIndirectItem indirectInsertApp
      (indirectInsert_fns_names mods) ind direct
      (ParseContext.parse_direct_applications mods direct []) hbase sf hsf

/-- Witness for `canonical_order`: the direct set `{m::f, m::z}` is sorted,
and the bucket assembled for `exMods9` has function names forming a sublist
of the direct set followed by the indirect set. -/
theorem canonical_order_witness :
    List.Pairwise strLt ["m::f", "m::z"]
    ∧ List.Sublist
        ((⟨"m", [], [], [],
            [⟨"m::f", ⟨"fn f()", ["fb"]⟩⟩, ⟨"m::z", ⟨"fn z()", ["zb"]⟩⟩,
              ⟨"m::a", ⟨"fn a()", []⟩⟩],
            [], [], [], [], [], [], [], []⟩ : SynFile).fns.map (fun f => f.name))
        (["m::f", "m::z"] ++ ["m::a", "m::f", "m::z"]) := by
  constructor
  · decide
  · exact (canonical_order exMods9 ["m::f", "m::z"] ["m::a", "m::f", "m::z"]
      (by decide)).2.2
      ⟨"m", [], [], [],
        [⟨"m::f", ⟨"fn f()", ["fb"]⟩⟩, ⟨"m::z", ⟨"fn z()", ["zb"]⟩⟩,
          ⟨"m::a", ⟨"fn a()", []⟩⟩],
        [], [], [], [], [], [], [], []⟩ (by decide)

end Rfocxt
